import Mathlib

/-!
Verification of the DAG-based workflow runner (server-side execution engine).

The engine is a TypeScript module exporting `executeWorkflow`; its components
are `topoSort` (Kahn's algorithm over an insertion-ordered record of
in-degrees), `resolveRef` / `resolveInput` (structural `$ref` resolution into
the execution context), `substituteQuery` (text-level replacement of the
token `{query}` over the JSON-serialized input, then re-parsing), a jq-like
expression evaluator (`jqEval` / `jqSingle`), and the retry/backoff/timeout
attempt loop of `executeWorkflow`.

Embedding conventions:
- JavaScript strings are modelled as `List Char` (`Str`).
- JSON-like runtime values are the inductive `JVal`; JavaScript's `undefined`
  is the constructor `JVal.undef`.  JSON numbers are modelled as integers
  (the workflow definitions and all values the claims touch are integral).
- JavaScript objects (`Record<string, T>`) are insertion-ordered association
  lists; assigning to an existing key updates it in place, a new key is
  appended, matching JS property order.
- Property membership (`k in v`) is modelled as own-property membership:
  object keys, array canonical indices and `"length"`.  Inherited
  prototype-chain members (`"toString"`, `"push"`, ...) are not modelled;
  no claim exercises them.
- Wall-clock reads (`Date.now()`), log timestamps (`timestamp()`) and the
  outcomes of the (network / IO performing) action handlers are modelled by
  oracles: `Oracle.now`, `Oracle.tsO` and `Oracle.hres` give the value
  returned by the i-th call of each.  `await sleep(ms)` is recorded in an
  event trace, as is each handler invocation.
- Fallible code returns `Except Str`; an exception that escapes
  `executeWorkflow` itself (a rejected promise at the caller) is the
  `.error` case of the outcome.
-/

/-- JavaScript strings, as sequences of characters. -/
abbrev Str := List Char

/-- Embeds a Lean string literal into the model's string type. -/
def str (s : String) : Str := s.data

/-- JSON-like runtime values (`unknown` in the source), with JavaScript's
`undefined` as an explicit constructor.  Objects are insertion-ordered
association lists. -/
inductive JVal where
  | null : JVal
  | undef : JVal
  | bool : Bool → JVal
  | num : Int → JVal
  | str : Str → JVal
  | arr : List JVal → JVal
  | obj : List (Str × JVal) → JVal

/-- A JavaScript object value (`Record<string, unknown>`). -/
abbrev JObj := List (Str × JVal)

/-- Object/record field read: the value at the first matching key, if any. -/
def objGet (fs : JObj) (k : Str) : Option JVal :=
  (fs.find? (fun p => p.1 = k)).map (·.2)

/-- Object/record assignment `o[k] = v`: updates the first matching key in
place, otherwise appends (JS property insertion order). -/
def objSet (fs : JObj) (k : Str) (v : JVal) : JObj :=
  if fs.any (fun p => p.1 = k) then
    fs.map (fun p => if p.1 = k then (p.1, v) else p)
  else
    fs ++ [(k, v)]

-- ---------------------------------------------------------------------------
-- Character and string helpers shared by the components
-- ---------------------------------------------------------------------------

/-- Decimal digit test (the `\d` character class). -/
def isDigitC (c : Char) : Bool := '0' ≤ c && c ≤ '9'

/-- Numeric value of a decimal digit character. -/
def digitVal (c : Char) : Nat := c.toNat - '0'.toNat

/-- Fuelled decimal rendering; fuel `n` suffices since `n / 10 < n` for
`n ≥ 10`, and the fuel-0 fallback is already correct for one digit. -/
def natToStrF : Nat → Nat → Str
  | 0, n => [Nat.digitChar (n % 10)]
  | fuel + 1, n =>
    if n < 10 then [Nat.digitChar n]
    else natToStrF fuel (n / 10) ++ [Nat.digitChar (n % 10)]

/-- Decimal rendering of a natural number (JS `String(n)` for naturals). -/
def natToStr (n : Nat) : Str :=
  natToStrF n n

theorem natToStrF_irrel (n : Nat) : ∀ f f', n ≤ f → n ≤ f' →
    natToStrF f n = natToStrF f' n := by
  induction n using Nat.strong_induction_on with
  | _ n ih =>
    intro f f' hf hf'
    by_cases h10 : n < 10
    · match f, f' with
      | 0, 0 => rfl
      | 0, g + 1 =>
        have hn : n = 0 := by omega
        subst hn; rw [natToStrF, natToStrF, if_pos h10]
      | g + 1, 0 =>
        have hn : n = 0 := by omega
        subst hn; rw [natToStrF, natToStrF, if_pos h10]
      | g + 1, g' + 1 =>
        rw [natToStrF, natToStrF, if_pos h10, if_pos h10]
    · cases f with
      | zero => omega
      | succ g =>
        cases f' with
        | zero => omega
        | succ g' =>
          rw [natToStrF, natToStrF, if_neg h10, if_neg h10]
          have hlt : n / 10 < n := Nat.div_lt_self (by omega) (by omega)
          rw [ih (n / 10) hlt g g' (by omega) (by omega)]

/-- Decimal rendering of an integer (JS number-to-string for integers). -/
def intToStr (i : Int) : Str :=
  if i < 0 then '-' :: natToStr (-i).toNat else natToStr i.toNat

/-- Accumulating decimal digit parser. -/
def parseDigitsAux : Str → Nat → Nat
  | [], acc => acc
  | c :: rest, acc => parseDigitsAux rest (acc * 10 + digitVal c)

/-- JS whitespace test (the characters `parseInt` skips). -/
def isWsC (c : Char) : Bool :=
  c = ' ' || c = '\t' || c = '\n' || c = '\r'

/-- Consumes an optional leading sign, returning (negative?, rest). -/
def parseIntSign (t : Str) : Bool × Str :=
  if t.head? = some '-' then (true, t.tail)
  else if t.head? = some '+' then (false, t.tail)
  else (false, t)

/-- `parseInt(s, 10)`: skip leading whitespace, optional sign, then the
longest leading digit run; `none` models `NaN` (no digits found). -/
def parseIntJS (s : Str) : Option Int :=
  let p := parseIntSign (s.dropWhile isWsC)
  let digits := p.2.takeWhile isDigitC
  if digits = [] then none
  else
    let v : Int := parseDigitsAux digits 0
    some (if p.1 then -v else v)

/-- `s.split(c)` for a single-character separator: JS semantics, so the
empty string splits to `[""]` and separators at the ends produce empty
pieces. -/
def splitOnC (c : Char) : Str → List Str
  | [] => [[]]
  | a :: rest =>
    if a = c then [] :: splitOnC c rest
    else
      match splitOnC c rest with
      | [] => [[a]]
      | r :: rs => (a :: r) :: rs

/-- Joins pieces with a single-character separator (inverse of `splitOnC`). -/
def joinSep (c : Char) : List Str → Str
  | [] => []
  | [p] => p
  | p :: ps => p ++ c :: joinSep c ps

/-- `s.replace(c, "")` for a single character: removes the first occurrence. -/
def removeFirst (c : Char) : Str → Str
  | [] => []
  | a :: rest => if a = c then rest else a :: removeFirst c rest

/-- `s.trim()`: strips leading and trailing whitespace. -/
def trimStr (s : Str) : Str :=
  ((s.dropWhile isWsC).reverse.dropWhile isWsC).reverse

-- ---------------------------------------------------------------------------
-- Lemmas about the string helpers
-- ---------------------------------------------------------------------------

theorem splitOnC_ne_nil (c : Char) (s : Str) : splitOnC c s ≠ [] := by
  cases s with
  | nil => simp [splitOnC]
  | cons a rest =>
    simp only [splitOnC]
    split
    · simp
    · split <;> simp

theorem splitOnC_no_sep (c : Char) (s : Str) (h : c ∉ s) : splitOnC c s = [s] := by
  induction s with
  | nil => rfl
  | cons a rest ih =>
    simp only [List.mem_cons, not_or] at h
    have hac : ¬(a = c) := fun hc => h.1 hc.symm
    simp only [splitOnC, if_neg hac, ih h.2]

theorem splitOnC_append_sep (c : Char) (s t : Str) (h : c ∉ s) :
    splitOnC c (s ++ c :: t) = s :: splitOnC c t := by
  induction s with
  | nil => simp [splitOnC]
  | cons a rest ih =>
    simp only [List.mem_cons, not_or] at h
    have hac : ¬(a = c) := fun hc => h.1 hc.symm
    simp only [List.cons_append, splitOnC, if_neg hac, List.append_eq, ih h.2]

theorem splitOnC_joinSep (c : Char) (ps : List Str) (hne : ps ≠ [])
    (h : ∀ p ∈ ps, c ∉ p) : splitOnC c (joinSep c ps) = ps := by
  induction ps with
  | nil => exact absurd rfl hne
  | cons p ps ih =>
    cases ps with
    | nil => exact splitOnC_no_sep c p (h p (by simp))
    | cons q qs =>
      have hj : joinSep c (p :: q :: qs) = p ++ c :: joinSep c (q :: qs) := rfl
      rw [hj, splitOnC_append_sep c _ _ (h p (by simp)),
        ih (by simp) (fun r hr => h r (List.mem_cons_of_mem _ hr))]

theorem removeFirst_append (c : Char) (s t : Str) (h : c ∉ s) :
    removeFirst c (s ++ c :: t) = s ++ t := by
  induction s with
  | nil => simp [removeFirst]
  | cons a rest ih =>
    simp only [List.mem_cons, not_or] at h
    have hac : ¬(a = c) := fun hc => h.1 hc.symm
    simp only [List.cons_append, removeFirst, if_neg hac, List.append_eq, ih h.2]

theorem digitVal_digitChar (d : Nat) (h : d < 10) :
    digitVal (Nat.digitChar d) = d := by
  interval_cases d <;> rfl

theorem isDigitC_digitChar (d : Nat) (h : d < 10) :
    isDigitC (Nat.digitChar d) = true := by
  interval_cases d <;> rfl

theorem natToStr_lt (n : Nat) (h : n < 10) : natToStr n = [Nat.digitChar n] := by
  rw [natToStr]
  match n with
  | 0 => rfl
  | m + 1 => rw [natToStrF, if_pos h]

theorem natToStr_ge (n : Nat) (h : ¬ n < 10) :
    natToStr n = natToStr (n / 10) ++ [Nat.digitChar (n % 10)] := by
  rw [natToStr, natToStr]
  match n, h with
  | m + 1, h =>
    rw [natToStrF, if_neg h]
    have hlt : (m + 1) / 10 < m + 1 := Nat.div_lt_self (by omega) (by omega)
    rw [natToStrF_irrel ((m + 1) / 10) m ((m + 1) / 10) (by omega) (le_refl _)]

theorem natToStr_ne_nil (n : Nat) : natToStr n ≠ [] := by
  by_cases h : n < 10
  · rw [natToStr_lt n h]; simp
  · rw [natToStr_ge n h]; simp

theorem natToStr_all_digits (n : Nat) : ∀ c ∈ natToStr n, isDigitC c = true := by
  induction n using Nat.strong_induction_on with
  | _ n ih =>
    by_cases h : n < 10
    · rw [natToStr_lt n h]
      simpa using isDigitC_digitChar n h
    · rw [natToStr_ge n h]
      intro c hc
      rcases List.mem_append.mp hc with h1 | h2
      · exact ih (n / 10) (Nat.div_lt_self (by omega) (by omega)) c h1
      · simp only [List.mem_singleton] at h2
        subst h2
        exact isDigitC_digitChar _ (Nat.mod_lt _ (by omega))

theorem parseDigitsAux_append (s : Str) (c : Char) (acc : Nat) :
    parseDigitsAux (s ++ [c]) acc = parseDigitsAux s acc * 10 + digitVal c := by
  induction s generalizing acc with
  | nil => rfl
  | cons a rest ih => simp only [List.cons_append, parseDigitsAux, List.append_eq, ih]

theorem parseDigitsAux_natToStr (n acc : Nat) :
    parseDigitsAux (natToStr n) acc = acc * 10 ^ (natToStr n).length + n := by
  induction n using Nat.strong_induction_on generalizing acc with
  | _ n ih =>
    by_cases h : n < 10
    · rw [natToStr_lt n h]
      simp [parseDigitsAux, digitVal_digitChar n h]
    · rw [natToStr_ge n h, parseDigitsAux_append,
        ih (n / 10) (Nat.div_lt_self (by omega) (by omega)),
        digitVal_digitChar _ (Nat.mod_lt _ (by omega))]
      have hlen : (natToStr (n / 10) ++ [Nat.digitChar (n % 10)]).length
          = (natToStr (n / 10)).length + 1 := by simp
      rw [hlen]
      have h2 : n / 10 * 10 + n % 10 = n := by omega
      calc (acc * 10 ^ (natToStr (n / 10)).length + n / 10) * 10 + n % 10
          = acc * (10 ^ (natToStr (n / 10)).length * 10) + (n / 10 * 10 + n % 10) := by
            ring
        _ = acc * 10 ^ ((natToStr (n / 10)).length + 1) + n := by rw [pow_succ, h2]

theorem not_ws_of_digit (c : Char) (h : isDigitC c = true) : ¬(isWsC c = true) := by
  intro hw
  simp only [isDigitC, Bool.and_eq_true, decide_eq_true_eq] at h
  simp only [isWsC, Bool.or_eq_true, decide_eq_true_eq] at hw
  obtain ⟨h1, h2⟩ := h
  rcases hw with ((h3 | h3) | h3) | h3 <;> subst h3 <;> revert h1 h2 <;> decide

theorem dropWhile_ws_of_digits (s : Str) (hd : ∀ c ∈ s, isDigitC c = true) :
    s.dropWhile isWsC = s := by
  cases s with
  | nil => rfl
  | cons a rest =>
    have ha : isDigitC a = true := hd a (by simp)
    rw [List.dropWhile_cons, if_neg (not_ws_of_digit a ha)]

theorem parseIntSign_of_digits (s : Str) (hd : ∀ c ∈ s, isDigitC c = true) :
    parseIntSign s = (false, s) := by
  have hns : ∀ c : Char, isDigitC c = false → s.head? ≠ some c := by
    intro c hc he
    cases s with
    | nil => simp at he
    | cons a rest =>
      simp only [List.head?_cons, Option.some.injEq] at he
      subst he
      have := hd a (by simp)
      rw [hc] at this
      exact Bool.false_ne_true this
  unfold parseIntSign
  rw [if_neg (hns '-' (by decide)), if_neg (hns '+' (by decide))]

theorem parseIntJS_natToStr (n : Nat) : parseIntJS (natToStr n) = some (n : Int) := by
  have hd := natToStr_all_digits n
  have hne := natToStr_ne_nil n
  have htw : (natToStr n).takeWhile isDigitC = natToStr n :=
    List.takeWhile_eq_self_iff.mpr hd
  simp only [parseIntJS, dropWhile_ws_of_digits _ hd, parseIntSign_of_digits _ hd,
    htw, if_neg hne]
  have := parseDigitsAux_natToStr n 0
  simp only [Nat.zero_mul, Nat.zero_add] at this
  simp [this]

theorem natToStr_no_char (n : Nat) (c : Char) (hc : isDigitC c = false) :
    c ∉ natToStr n := by
  intro hmem
  have := natToStr_all_digits n c hmem
  rw [hc] at this
  exact Bool.false_ne_true this

-- ---------------------------------------------------------------------------
-- Data model (types.ts)
-- ---------------------------------------------------------------------------

/-- Per-node retry policy. -/
structure RetryPolicy where
  maxAttempts : Int
  backoffMs : Int

/-- A workflow node: identifier, action reference, input template, optional
dependencies, optional timeout, optional retry policy. -/
structure WorkflowNode where
  id : Str
  actionRef : Str
  schemaVersion : Str
  input : JVal
  dependsOn : Option (List Str)
  timeoutMs : Option Int
  retry : Option RetryPolicy

/-- `n.dependsOn ?? []`. -/
def depsOf (n : WorkflowNode) : List Str := n.dependsOn.getD []

/-- Owning principal of a workflow. -/
structure Principal where
  id : Str
  permissions : List Str

/-- Termination limits declared by a workflow (not enforced by the engine). -/
structure Termination where
  maxNodes : Int
  maxRuntimeMs : Int
  warnAtPct : Int

/-- Workflow metadata. -/
structure WorkflowMetadata where
  name : Str
  description : Str
  risk : Str
  principal : Principal
  termination : Termination

/-- A workflow definition: metadata plus an ordered list of nodes. -/
structure WorkflowDefinition where
  version : Str
  metadata : WorkflowMetadata
  nodes : List WorkflowNode

/-- Record of one node's outcome. -/
structure NodeExecution where
  nodeId : Str
  action : Str
  status : Str
  durationMs : Int
  inputData : Option JVal
  outputData : Option JVal
  error : Option Str

-- ---------------------------------------------------------------------------
-- Topological sort (topoSort): the in-degree record
-- ---------------------------------------------------------------------------

/-- The `indeg` record: an insertion-ordered map from id to in-degree. -/
abbrev IndegMap := List (Str × Int)

/-- `k in m`. -/
def hasKey (m : IndegMap) (k : Str) : Bool := m.any (fun p => p.1 = k)

/-- `m[k] ?? 0`: the first entry's value, defaulting to 0. -/
def getD (m : IndegMap) (k : Str) : Int :=
  ((m.find? (fun p => p.1 = k)).map (·.2)).getD 0

/-- `m[k] ??= v`: appends the key with value `v` only if absent. -/
def setIfAbsent (m : IndegMap) (k : Str) (v : Int) : IndegMap :=
  if hasKey m k then m else m ++ [(k, v)]

/-- `m[k] = f m[k]` for a present key: updates entries with key `k` in
place. -/
def mapVal (m : IndegMap) (k : Str) (f : Int → Int) : IndegMap :=
  m.map (fun p => if p.1 = k then (p.1, f p.2) else p)

/-- `indeg[n.id] = (indeg[n.id] ?? 0) + 1`. -/
def bump (m : IndegMap) (k : Str) : IndegMap :=
  if hasKey m k then mapVal m k (· + 1) else m ++ [(k, 1)]

/-- First loop of `topoSort`: `indeg[n.id] ??= 0` for every node. -/
def initIds : List WorkflowNode → IndegMap → IndegMap
  | [], m => m
  | n :: rest, m => initIds rest (setIfAbsent m n.id 0)

/-- Inner loop of the second pass: for each `dep` of a node with id `nid`,
`indeg[nid] += 1; indeg[dep] ??= 0`. -/
def addDepsOne : List Str → Str → IndegMap → IndegMap
  | [], _, m => m
  | d :: ds, nid, m => addDepsOne ds nid (setIfAbsent (bump m nid) d 0)

/-- Second loop of `topoSort`: accumulate in-degrees and register phantom
dependency keys. -/
def initDeg : List WorkflowNode → IndegMap → IndegMap
  | [], m => m
  | n :: rest, m => initDeg rest (addDepsOne (depsOf n) n.id m)

-- ---------------------------------------------------------------------------
-- Topological sort: the queue loop
-- ---------------------------------------------------------------------------

/-- Body of the while loop once `cur` is popped: for every node listing
`cur` as a dependency, decrement its in-degree and enqueue it when the
decrement reaches exactly 0.  The `hasKey` conjunct records that every
node id is a key of the map (the first init loop guarantees it); in the
source a missing key would be set to `NaN` by `indeg[n.id]--` and `NaN`
never compares equal to 0, so such a node is never enqueued — exactly the
behaviour of skipping it here. -/
def innerLoop : List WorkflowNode → Str → IndegMap → List Str → IndegMap × List Str
  | [], _, m, q => (m, q)
  | n :: rest, cur, m, q =>
    if cur ∈ depsOf n ∧ hasKey m n.id then
      let m' := mapVal m n.id (· - 1)
      let q' := if getD m' n.id = 0 then q ++ [n.id] else q
      innerLoop rest cur m' q'
    else
      innerLoop rest cur m q

/-- Sum of the positive in-degrees: the loop's termination measure. -/
def posSum (m : IndegMap) : Nat := (m.map (fun p => p.2.toNat)).sum

theorem getD_cons (a : Str) (v : Int) (rest : IndegMap) (k : Str) :
    getD ((a, v) :: rest) k = if a = k then v else getD rest k := by
  by_cases h : a = k <;> simp [getD, List.find?, h]

theorem hasKey_cons (a : Str) (v : Int) (rest : IndegMap) (k : Str) :
    hasKey ((a, v) :: rest) k = (decide (a = k) || hasKey rest k) := by
  simp [hasKey]

theorem mapVal_cons (a : Str) (v : Int) (rest : IndegMap) (k : Str) (f : Int → Int) :
    mapVal ((a, v) :: rest) k f
      = (if a = k then (a, f v) else (a, v)) :: mapVal rest k f := by
  by_cases h : a = k <;> simp [mapVal, h]

theorem getD_mapVal_self (m : IndegMap) (k : Str) (f : Int → Int)
    (h : hasKey m k = true) : getD (mapVal m k f) k = f (getD m k) := by
  induction m with
  | nil => simp [hasKey] at h
  | cons p rest ih =>
    obtain ⟨a, v⟩ := p
    rw [mapVal_cons]
    by_cases hp : a = k
    · rw [if_pos hp, getD_cons, getD_cons, if_pos hp, if_pos hp]
    · rw [hasKey_cons] at h
      simp only [Bool.or_eq_true, decide_eq_true_eq] at h
      rcases h with h | h
      · exact absurd h hp
      · rw [if_neg hp, getD_cons, getD_cons, if_neg hp, if_neg hp]
        exact ih h

theorem getD_mapVal_ne (m : IndegMap) (k k' : Str) (f : Int → Int)
    (h : k' ≠ k) : getD (mapVal m k f) k' = getD m k' := by
  induction m with
  | nil => rfl
  | cons p rest ih =>
    obtain ⟨a, v⟩ := p
    rw [mapVal_cons]
    by_cases hp : a = k
    · have hak' : ¬(a = k') := fun he => h (he.symm.trans hp)
      rw [if_pos hp, getD_cons, getD_cons, if_neg hak', if_neg hak']
      exact ih
    · rw [if_neg hp, getD_cons, getD_cons]
      by_cases hq : a = k'
      · rw [if_pos hq, if_pos hq]
      · rw [if_neg hq, if_neg hq]
        exact ih

theorem posSum_mapVal_dec_le (m : IndegMap) (k : Str) :
    posSum (mapVal m k (· - 1)) ≤ posSum m := by
  induction m with
  | nil => simp [posSum, mapVal]
  | cons p rest ih =>
    obtain ⟨a, v⟩ := p
    rw [mapVal_cons]
    by_cases hp : a = k
    · rw [if_pos hp]
      simp only [posSum, List.map_cons, List.sum_cons] at *
      omega
    · rw [if_neg hp]
      simp only [posSum, List.map_cons, List.sum_cons] at *
      omega

theorem posSum_mapVal_dec_lt (m : IndegMap) (k : Str)
    (hk : hasKey m k = true) (h1 : getD m k = 1) :
    posSum (mapVal m k (· - 1)) + 1 ≤ posSum m := by
  induction m with
  | nil => simp [hasKey] at hk
  | cons p rest ih =>
    obtain ⟨a, v⟩ := p
    rw [mapVal_cons]
    by_cases hp : a = k
    · have hval : v = 1 := by
        rw [getD_cons, if_pos hp] at h1
        exact h1
      have hle := posSum_mapVal_dec_le rest k
      rw [if_pos hp]
      simp only [posSum, List.map_cons, List.sum_cons] at *
      omega
    · rw [hasKey_cons] at hk
      simp only [Bool.or_eq_true, decide_eq_true_eq] at hk
      rcases hk with h | h
      · exact absurd h hp
      · rw [getD_cons, if_neg hp] at h1
        have := ih h h1
        rw [if_neg hp]
        simp only [posSum, List.map_cons, List.sum_cons] at *
        omega

theorem innerLoop_measure (ns : List WorkflowNode) (cur : Str) (m : IndegMap)
    (q : List Str) :
    2 * posSum (innerLoop ns cur m q).1 + (innerLoop ns cur m q).2.length
      ≤ 2 * posSum m + q.length := by
  induction ns generalizing m q with
  | nil => simp [innerLoop]
  | cons n rest ih =>
    simp only [innerLoop]
    split
    · next hcond =>
      by_cases he : getD (mapVal m n.id (· - 1)) n.id = 0
      · have hdec : getD (mapVal m n.id (· - 1)) n.id = getD m n.id - 1 := by
          rw [getD_mapVal_self m n.id _ hcond.2]
        have hval : getD m n.id = 1 := by omega
        have hlt := posSum_mapVal_dec_lt m n.id hcond.2 hval
        have := ih (mapVal m n.id (· - 1)) (q ++ [n.id])
        simp only [if_pos he] at *
        simp only [List.length_append, List.length_singleton] at *
        omega
      · have hle := posSum_mapVal_dec_le m n.id
        have := ih (mapVal m n.id (· - 1)) q
        simp only [if_neg he] at *
        omega
    · exact ih m q

/-- The while loop of `topoSort`, with explicit fuel: pop from the FIFO
queue, append to the order, process dependents.  `innerLoop_measure` shows
each iteration strictly decreases `2 * posSum m + q.length`, so with fuel
at least that measure the zero-fuel case is unreachable and the function
computes exactly the source's `while (queue.length > 0)` loop
(`topoLoopF_fuel_irrelevant` below). -/
def topoLoopF (nodes : List WorkflowNode) : Nat → IndegMap → List Str →
    List Str → List Str × IndegMap
  | _, m, [], order => (order, m)
  | 0, m, _ :: _, order => (order, m)
  | fuel + 1, m, cur :: rest, order =>
    let r := innerLoop nodes cur m rest
    topoLoopF nodes fuel r.1 r.2 (order ++ [cur])

/-- The source's while loop: fuel instantiated with the termination
measure. -/
def topoLoop (nodes : List WorkflowNode) (m : IndegMap) (q : List Str)
    (order : List Str) : List Str × IndegMap :=
  topoLoopF nodes (2 * posSum m + q.length) m q order

theorem topoLoopF_fuel_irrelevant (nodes : List WorkflowNode) :
    ∀ fuel₁ fuel₂ : Nat, ∀ m q order,
    2 * posSum m + q.length ≤ fuel₁ → 2 * posSum m + q.length ≤ fuel₂ →
    topoLoopF nodes fuel₁ m q order = topoLoopF nodes fuel₂ m q order := by
  intro fuel₁
  induction fuel₁ with
  | zero =>
    intro fuel₂ m q order h₁ _h₂
    cases q with
    | nil => cases fuel₂ <;> rfl
    | cons cur rest => simp at h₁
  | succ f ih =>
    intro fuel₂ m q order h₁ h₂
    cases q with
    | nil => cases fuel₂ <;> rfl
    | cons cur rest =>
      cases fuel₂ with
      | zero => simp at h₂
      | succ f₂ =>
        simp only [topoLoopF]
        have hm := innerLoop_measure nodes cur m rest
        simp only [List.length_cons] at h₁ h₂
        exact ih f₂ _ _ _ (by omega) (by omega)

/-- `topoSort(nodes)`: returns the computed order and the cycle set (the
keys whose in-degree stayed positive). -/
def topoSort (nodes : List WorkflowNode) : List Str × List Str :=
  let m0 := initDeg nodes (initIds nodes [])
  let seed := (m0.filter (fun p => p.2 = 0)).map (·.1)
  let res := topoLoop nodes m0 seed []
  (res.1, (res.2.filter (fun p => 0 < p.2)).map (·.1))

-- ---------------------------------------------------------------------------
-- The dependency graph of a node list
-- ---------------------------------------------------------------------------

/-- The node identifiers, in declaration order. -/
def nodeIds (nodes : List WorkflowNode) : List Str := nodes.map (·.id)

/-- The dependency list of the first node with id `k` (`[]` when there is
none). -/
def nodeDeps (nodes : List WorkflowNode) (k : Str) : List Str :=
  ((nodes.find? (fun n => n.id = k)).map depsOf).getD []

/-- Dependency edge: `y` is a declared dependency of a node with id `x`. -/
def DepEdge (nodes : List WorkflowNode) (y x : Str) : Prop :=
  ∃ n ∈ nodes, n.id = x ∧ y ∈ depsOf n

/-- The dependency graph is acyclic: every id is accessible along
dependency edges. -/
def Acyclic (nodes : List WorkflowNode) : Prop := WellFounded (DepEdge nodes)

/-- The dependency graph has a (possibly transitive) cycle. -/
def HasCycle (nodes : List WorkflowNode) : Prop :=
  ∃ x, Relation.TransGen (DepEdge nodes) x x

-- ---------------------------------------------------------------------------
-- Characterising the in-degree initialisation
-- ---------------------------------------------------------------------------

theorem hasKey_iff_mem_keys (m : IndegMap) (k : Str) :
    hasKey m k = true ↔ k ∈ m.map (·.1) := by
  simp only [hasKey, List.any_eq_true, decide_eq_true_eq, List.mem_map]

theorem getD_eq_zero_of_not_hasKey (m : IndegMap) (k : Str)
    (h : hasKey m k = false) : getD m k = 0 := by
  induction m with
  | nil => rfl
  | cons p rest ih =>
    obtain ⟨a, v⟩ := p
    rw [hasKey_cons] at h
    simp only [Bool.or_eq_false_iff, decide_eq_false_iff_not] at h
    rw [getD_cons, if_neg h.1]
    exact ih h.2

theorem getD_append_single (m : IndegMap) (k k' : Str) (v : Int) :
    getD (m ++ [(k, v)]) k'
      = if hasKey m k' then getD m k' else if k = k' then v else 0 := by
  induction m with
  | nil =>
    simp only [List.nil_append, hasKey, List.any_nil, Bool.false_eq_true, if_false]
    rw [getD_cons]
    split <;> rfl
  | cons p rest ih =>
    obtain ⟨a, w⟩ := p
    rw [List.cons_append, getD_cons, hasKey_cons, getD_cons]
    by_cases ha : a = k'
    · simp [ha]
    · have hd : (decide (a = k') : Bool) = false := by simp [ha]
      rw [if_neg ha, if_neg ha, hd, Bool.false_or]
      exact ih

theorem hasKey_append_single (m : IndegMap) (k k' : Str) (v : Int) :
    hasKey (m ++ [(k, v)]) k' = (hasKey m k' || decide (k = k')) := by
  simp [hasKey, List.any_append]

theorem hasKey_mapVal (m : IndegMap) (k k' : Str) (f : Int → Int) :
    hasKey (mapVal m k f) k' = hasKey m k' := by
  induction m with
  | nil => rfl
  | cons p rest ih =>
    obtain ⟨a, v⟩ := p
    rw [mapVal_cons]
    by_cases ha : a = k
    · rw [if_pos ha, hasKey_cons, hasKey_cons, ih]
    · rw [if_neg ha, hasKey_cons, hasKey_cons, ih]

theorem keys_mapVal (m : IndegMap) (k : Str) (f : Int → Int) :
    (mapVal m k f).map (·.1) = m.map (·.1) := by
  induction m with
  | nil => rfl
  | cons p rest ih =>
    obtain ⟨a, v⟩ := p
    rw [mapVal_cons]
    by_cases ha : a = k
    · rw [if_pos ha]
      simpa using ih
    · rw [if_neg ha]
      simpa using ih

theorem getD_setIfAbsent_zero (m : IndegMap) (k k' : Str) :
    getD (setIfAbsent m k 0) k' = getD m k' := by
  unfold setIfAbsent
  split
  · rfl
  · next h =>
    rw [getD_append_single]
    split
    · rfl
    · split
      · next he =>
        subst he
        rw [getD_eq_zero_of_not_hasKey]
        next h' => simpa using h'
      · next he =>
        next h' =>
        rw [getD_eq_zero_of_not_hasKey]
        simpa using h'

theorem hasKey_setIfAbsent (m : IndegMap) (k k' : Str) (v : Int) :
    hasKey (setIfAbsent m k v) k' = (hasKey m k' || decide (k = k')) := by
  unfold setIfAbsent
  split
  · next h =>
    by_cases he : k = k'
    · subst he
      simp [h]
    · simp [he]
  · exact hasKey_append_single m k k' v

theorem getD_bump (m : IndegMap) (k k' : Str) :
    getD (bump m k) k' = getD m k' + if k = k' then 1 else 0 := by
  unfold bump
  split
  · next h =>
    by_cases he : k = k'
    · subst he
      rw [getD_mapVal_self m k _ h, if_pos rfl]
    · rw [getD_mapVal_ne m k k' _ (fun hc => he hc.symm), if_neg he]
      omega
  · next h =>
    have h0 : hasKey m k = false := by simpa using h
    rw [getD_append_single]
    by_cases he : k = k'
    · subst he
      rw [if_neg (show ¬(hasKey m k = true) by simp [h0]), if_pos rfl,
        getD_eq_zero_of_not_hasKey m k h0]
      omega
    · rw [if_neg he]
      split
      · omega
      · next h' =>
        rw [getD_eq_zero_of_not_hasKey m k' (by simpa using h')]
        omega

theorem hasKey_bump (m : IndegMap) (k k' : Str) :
    hasKey (bump m k) k' = (hasKey m k' || decide (k = k')) := by
  unfold bump
  split
  · next h =>
    rw [hasKey_mapVal]
    by_cases he : k = k'
    · subst he
      simp [h]
    · simp [he]
  · exact hasKey_append_single m k k' 1

theorem getD_addDepsOne (ds : List Str) (nid : Str) (m : IndegMap) (k : Str) :
    getD (addDepsOne ds nid m) k
      = getD m k + if nid = k then (ds.length : Int) else 0 := by
  induction ds generalizing m with
  | nil => simp [addDepsOne]
  | cons d rest ih =>
    simp only [addDepsOne]
    rw [ih, getD_setIfAbsent_zero, getD_bump]
    by_cases he : nid = k
    · simp only [if_pos he, List.length_cons]
      push_cast
      ring
    · simp [if_neg he]

theorem hasKey_addDepsOne (ds : List Str) (nid : Str) (m : IndegMap) (k : Str) :
    hasKey (addDepsOne ds nid m) k = true
      ↔ hasKey m k = true ∨ (ds ≠ [] ∧ nid = k) ∨ k ∈ ds := by
  induction ds generalizing m with
  | nil => simp [addDepsOne]
  | cons d rest ih =>
    simp only [addDepsOne]
    rw [ih, hasKey_setIfAbsent, hasKey_bump]
    simp only [Bool.or_eq_true, decide_eq_true_eq, List.mem_cons, ne_eq,
      List.cons_ne_nil, not_false_eq_true, true_and]
    rw [show (k = d ↔ d = k) from eq_comm]
    tauto

theorem getD_initIds (ns : List WorkflowNode) (m : IndegMap) (k : Str) :
    getD (initIds ns m) k = getD m k := by
  induction ns generalizing m with
  | nil => rfl
  | cons n rest ih => rw [initIds, ih, getD_setIfAbsent_zero]

theorem hasKey_initIds (ns : List WorkflowNode) (m : IndegMap) (k : Str) :
    hasKey (initIds ns m) k = true ↔ hasKey m k = true ∨ k ∈ nodeIds ns := by
  induction ns generalizing m with
  | nil => simp [initIds, nodeIds]
  | cons n rest ih =>
    rw [initIds, ih, hasKey_setIfAbsent]
    simp only [Bool.or_eq_true, decide_eq_true_eq, nodeIds, List.map_cons,
      List.mem_cons]
    rw [show (k = n.id ↔ n.id = k) from eq_comm]
    tauto

/-- Total declared in-degree contributed to key `k`: the dependency counts
of all nodes with id `k` (with multiplicity). -/
def degSum (ns : List WorkflowNode) (k : Str) : Nat :=
  ((ns.filter (fun n => n.id = k)).map (fun n => (depsOf n).length)).sum

theorem getD_initDeg (ns : List WorkflowNode) (m : IndegMap) (k : Str) :
    getD (initDeg ns m) k = getD m k + (degSum ns k : Int) := by
  induction ns generalizing m with
  | nil => simp [initDeg, degSum]
  | cons n rest ih =>
    rw [initDeg, ih, getD_addDepsOne]
    by_cases he : n.id = k
    · have hfil : degSum (n :: rest) k = (depsOf n).length + degSum rest k := by
        simp [degSum, List.filter_cons, he]
      rw [if_pos he, hfil]
      push_cast
      ring
    · have hfil : degSum (n :: rest) k = degSum rest k := by
        simp [degSum, List.filter_cons, he]
      rw [if_neg he, hfil]
      ring

theorem hasKey_initDeg (ns : List WorkflowNode) (m : IndegMap) (k : Str) :
    hasKey (initDeg ns m) k = true
      ↔ hasKey m k = true ∨ ∃ n ∈ ns, (depsOf n ≠ [] ∧ n.id = k) ∨ k ∈ depsOf n := by
  induction ns generalizing m with
  | nil => simp [initDeg]
  | cons n rest ih =>
    rw [initDeg, ih, hasKey_addDepsOne]
    constructor
    · rintro ((h | h) | ⟨n', hn', h⟩)
      · exact Or.inl h
      · exact Or.inr ⟨n, by simp, h⟩
      · exact Or.inr ⟨n', by simp [hn'], h⟩
    · rintro (h | ⟨n', hn', h⟩)
      · exact Or.inl (Or.inl h)
      · rcases List.mem_cons.mp hn' with he | hm
        · subst he
          exact Or.inl (Or.inr h)
        · exact Or.inr ⟨n', hm, h⟩

theorem keys_setIfAbsent_nodup (m : IndegMap) (k : Str) (v : Int)
    (h : (m.map (·.1)).Nodup) : ((setIfAbsent m k v).map (·.1)).Nodup := by
  unfold setIfAbsent
  split
  · exact h
  · next hk =>
    rw [List.map_append]
    simp only [List.map_cons, List.map_nil]
    rw [List.nodup_append]
    refine ⟨h, List.nodup_singleton k, ?_⟩
    intro x hx hx'
    simp only [List.mem_singleton] at hx'
    rw [hx'] at hx
    exact hk ((hasKey_iff_mem_keys m k).mpr hx)

theorem keys_bump_nodup (m : IndegMap) (k : Str)
    (h : (m.map (·.1)).Nodup) : ((bump m k).map (·.1)).Nodup := by
  unfold bump
  split
  · rw [keys_mapVal]
    exact h
  · next hk =>
    rw [List.map_append]
    simp only [List.map_cons, List.map_nil]
    rw [List.nodup_append]
    refine ⟨h, List.nodup_singleton k, ?_⟩
    intro x hx hx'
    simp only [List.mem_singleton] at hx'
    rw [hx'] at hx
    exact hk ((hasKey_iff_mem_keys m k).mpr hx)

theorem keys_addDepsOne_nodup (ds : List Str) (nid : Str) (m : IndegMap)
    (h : (m.map (·.1)).Nodup) : ((addDepsOne ds nid m).map (·.1)).Nodup := by
  induction ds generalizing m with
  | nil => exact h
  | cons d rest ih =>
    exact ih _ (keys_setIfAbsent_nodup _ _ _ (keys_bump_nodup _ _ h))

theorem keys_initIds_nodup (ns : List WorkflowNode) (m : IndegMap)
    (h : (m.map (·.1)).Nodup) : ((initIds ns m).map (·.1)).Nodup := by
  induction ns generalizing m with
  | nil => exact h
  | cons n rest ih => exact ih _ (keys_setIfAbsent_nodup _ _ _ h)

theorem keys_initDeg_nodup (ns : List WorkflowNode) (m : IndegMap)
    (h : (m.map (·.1)).Nodup) : ((initDeg ns m).map (·.1)).Nodup := by
  induction ns generalizing m with
  | nil => exact h
  | cons n rest ih => exact ih _ (keys_addDepsOne_nodup _ _ _ h)

-- ---------------------------------------------------------------------------
-- Unique-id lookups
-- ---------------------------------------------------------------------------

theorem find?_id_eq_of_nodup (ns : List WorkflowNode)
    (hid : (nodeIds ns).Nodup) (n : WorkflowNode) (hn : n ∈ ns) :
    ns.find? (fun x => x.id = n.id) = some n := by
  induction ns with
  | nil => cases hn
  | cons n' rest ih =>
    simp only [nodeIds, List.map_cons, List.nodup_cons] at hid
    rcases List.mem_cons.mp hn with he | hm
    · subst he
      simp [List.find?]
    · by_cases he : n'.id = n.id
      · exact absurd (he ▸ (List.mem_map.mpr ⟨n, hm, rfl⟩)) hid.1
      · have hd : (decide (n'.id = n.id) : Bool) = false := by simp [he]
        simp only [List.find?, hd]
        exact ih hid.2 hm

theorem nodeDeps_eq_depsOf (ns : List WorkflowNode)
    (hid : (nodeIds ns).Nodup) (n : WorkflowNode) (hn : n ∈ ns) :
    nodeDeps ns n.id = depsOf n := by
  rw [nodeDeps, find?_id_eq_of_nodup ns hid n hn]
  rfl

theorem nodeDeps_eq_nil_of_not_mem (ns : List WorkflowNode) (k : Str)
    (hk : k ∉ nodeIds ns) : nodeDeps ns k = [] := by
  rw [nodeDeps]
  cases hf : ns.find? (fun x => x.id = k) with
  | none => rfl
  | some n =>
    have hmem := List.mem_of_find?_eq_some hf
    have hp := List.find?_some hf
    simp only [decide_eq_true_eq] at hp
    exact absurd (hp ▸ List.mem_map.mpr ⟨n, hmem, rfl⟩) hk

theorem DepEdge_iff (ns : List WorkflowNode) (hid : (nodeIds ns).Nodup)
    (y x : Str) : DepEdge ns y x ↔ x ∈ nodeIds ns ∧ y ∈ nodeDeps ns x := by
  constructor
  · rintro ⟨n, hn, he, hy⟩
    subst he
    exact ⟨List.mem_map.mpr ⟨n, hn, rfl⟩, (nodeDeps_eq_depsOf ns hid n hn) ▸ hy⟩
  · rintro ⟨hx, hy⟩
    obtain ⟨n, hn, he⟩ := List.mem_map.mp hx
    subst he
    rw [nodeDeps_eq_depsOf ns hid n hn] at hy
    exact ⟨n, hn, rfl, hy⟩

-- ---------------------------------------------------------------------------
-- Characterising innerLoop
-- ---------------------------------------------------------------------------

theorem innerLoop_spec (ns : List WorkflowNode) (cur : Str) :
    ∀ (m : IndegMap) (q : List Str),
    (nodeIds ns).Nodup → (∀ n ∈ ns, hasKey m n.id = true) →
    ((innerLoop ns cur m q).1.map (·.1) = m.map (·.1)) ∧
    (∀ k, getD (innerLoop ns cur m q).1 k
        = getD m k - (if ∃ n ∈ ns, n.id = k ∧ cur ∈ depsOf n then 1 else 0)) ∧
    ((innerLoop ns cur m q).2
      = q ++ (ns.filter
          (fun n => decide (cur ∈ depsOf n) && decide (getD m n.id = 1))).map (·.id)) := by
  induction ns with
  | nil =>
    intro m q _ _
    refine ⟨rfl, ?_, by simp [innerLoop]⟩
    intro k
    simp [innerLoop]
  | cons n rest ih =>
    intro m q hnd hkeys
    have hknid : hasKey m n.id = true := hkeys n (by simp)
    have hnd' : (nodeIds rest).Nodup := by
      simp only [nodeIds, List.map_cons, List.nodup_cons] at hnd
      exact hnd.2
    have hnid_rest : n.id ∉ nodeIds rest := by
      simp only [nodeIds, List.map_cons, List.nodup_cons] at hnd
      exact hnd.1
    by_cases hc : cur ∈ depsOf n
    · have hguard : cur ∈ depsOf n ∧ hasKey m n.id := ⟨hc, by simp [hknid]⟩
      rw [show innerLoop (n :: rest) cur m q
          = innerLoop rest cur (mapVal m n.id (· - 1))
            (if getD (mapVal m n.id (· - 1)) n.id = 0 then q ++ [n.id] else q) by
        simp only [innerLoop, if_pos hguard]]
      set m₁ := mapVal m n.id (· - 1) with hm₁
      set q₁ := if getD m₁ n.id = 0 then q ++ [n.id] else q with hq₁
      have hkeys' : ∀ r ∈ rest, hasKey m₁ r.id = true := by
        intro r hr
        rw [hm₁, hasKey_mapVal]
        exact hkeys r (List.mem_cons_of_mem _ hr)
      obtain ⟨ihkeys, ihvals, ihq⟩ := ih m₁ q₁ hnd' hkeys'
      have hdec : getD m₁ n.id = getD m n.id - 1 := by
        rw [hm₁, getD_mapVal_self m n.id _ hknid]
      have hne_rest : ∀ r ∈ rest, r.id ≠ n.id := by
        intro r hr he
        exact hnid_rest (he ▸ List.mem_map.mpr ⟨r, hr, rfl⟩)
      have hgd_rest : ∀ r ∈ rest, getD m₁ r.id = getD m r.id := by
        intro r hr
        rw [hm₁, getD_mapVal_ne m n.id r.id _ (hne_rest r hr)]
      refine ⟨ihkeys.trans (by rw [hm₁, keys_mapVal]), ?_, ?_⟩
      · intro k
        rw [ihvals k]
        by_cases hk : k = n.id
        · subst hk
          have hex1 : (∃ n' ∈ n :: rest, n'.id = n.id ∧ cur ∈ depsOf n') :=
            ⟨n, by simp, rfl, hc⟩
          have hex2 : ¬(∃ r ∈ rest, r.id = n.id ∧ cur ∈ depsOf r) := by
            rintro ⟨r, hr, he, _⟩
            exact hne_rest r hr he
          rw [if_pos hex1, if_neg hex2, hdec]
          omega
        · have h1 : getD m₁ k = getD m k := by
            rw [hm₁, getD_mapVal_ne m n.id k _ hk]
          have hiff : (∃ r ∈ rest, r.id = k ∧ cur ∈ depsOf r)
              ↔ (∃ n' ∈ n :: rest, n'.id = k ∧ cur ∈ depsOf n') := by
            constructor
            · rintro ⟨r, hr, he, hcr⟩
              exact ⟨r, List.mem_cons_of_mem _ hr, he, hcr⟩
            · rintro ⟨n', hn', he, hcn⟩
              rcases List.mem_cons.mp hn' with heq | hm'
              · subst heq
                exact absurd he.symm hk
              · exact ⟨n', hm', he, hcn⟩
          rw [h1]
          by_cases hex : ∃ r ∈ rest, r.id = k ∧ cur ∈ depsOf r
          · rw [if_pos hex, if_pos (hiff.mp hex)]
          · rw [if_neg hex, if_neg (fun h => hex (hiff.mpr h))]
      · rw [ihq]
        have hfilter : rest.filter
              (fun r => decide (cur ∈ depsOf r) && decide (getD m₁ r.id = 1))
            = rest.filter
              (fun r => decide (cur ∈ depsOf r) && decide (getD m r.id = 1)) := by
          apply List.filter_congr
          intro r hr
          rw [hgd_rest r hr]
        rw [hfilter]
        by_cases h1 : getD m n.id = 1
        · have hz : getD m₁ n.id = 0 := by omega
          rw [hq₁, if_pos hz]
          have hP : (decide (cur ∈ depsOf n) && decide (getD m n.id = 1)) = true := by
            simp [hc, h1]
          rw [List.filter_cons, if_pos hP]
          simp [List.append_assoc]
        · have hz : ¬(getD m₁ n.id = 0) := by omega
          rw [hq₁, if_neg hz]
          have hP : ¬((decide (cur ∈ depsOf n) && decide (getD m n.id = 1)) = true) := by
            simp [h1]
          rw [List.filter_cons, if_neg hP]
    · rw [show innerLoop (n :: rest) cur m q = innerLoop rest cur m q by
        simp only [innerLoop]
        rw [if_neg (fun h => hc h.1)]]
      have hkeys' : ∀ r ∈ rest, hasKey m r.id = true := by
        intro r hr
        exact hkeys r (List.mem_cons_of_mem _ hr)
      obtain ⟨ihkeys, ihvals, ihq⟩ := ih m q hnd' hkeys'
      refine ⟨ihkeys, ?_, ?_⟩
      · intro k
        rw [ihvals k]
        have hiff : (∃ r ∈ rest, r.id = k ∧ cur ∈ depsOf r)
            ↔ (∃ n' ∈ n :: rest, n'.id = k ∧ cur ∈ depsOf n') := by
          constructor
          · rintro ⟨r, hr, he, hcr⟩
            exact ⟨r, List.mem_cons_of_mem _ hr, he, hcr⟩
          · rintro ⟨n', hn', he, hcn⟩
            rcases List.mem_cons.mp hn' with heq | hm'
            · subst heq
              exact absurd hcn hc
            · exact ⟨n', hm', he, hcn⟩
        by_cases hex : ∃ r ∈ rest, r.id = k ∧ cur ∈ depsOf r
        · rw [if_pos hex, if_pos (hiff.mp hex)]
        · rw [if_neg hex, if_neg (fun h => hex (hiff.mpr h))]
      · rw [ihq]
        have hP : ¬((decide (cur ∈ depsOf n) && decide (getD m n.id = 1)) = true) := by
          simp [hc]
        rw [List.filter_cons, if_neg hP]

-- ---------------------------------------------------------------------------
-- The Kahn loop invariant
-- ---------------------------------------------------------------------------

/-- The fully initialised in-degree record of `topoSort`. -/
def kahnInit (nodes : List WorkflowNode) : IndegMap :=
  initDeg nodes (initIds nodes [])

/-- The initial queue: keys of in-degree 0, in insertion order. -/
def kahnSeed (nodes : List WorkflowNode) : List Str :=
  ((kahnInit nodes).filter (fun p => p.2 = 0)).map (·.1)

theorem topoSort_eq (nodes : List WorkflowNode) :
    topoSort nodes
      = ((topoLoop nodes (kahnInit nodes) (kahnSeed nodes) []).1,
         (((topoLoop nodes (kahnInit nodes) (kahnSeed nodes) []).2.filter
             (fun p => 0 < p.2)).map (·.1))) := rfl

theorem keys_kahnInit_nodup (nodes : List WorkflowNode) :
    ((kahnInit nodes).map (·.1)).Nodup :=
  keys_initDeg_nodup _ _ (keys_initIds_nodup _ _ (by simp))

theorem hasKey_kahnInit_iff (nodes : List WorkflowNode) (k : Str) :
    hasKey (kahnInit nodes) k = true
      ↔ k ∈ nodeIds nodes ∨ ∃ n ∈ nodes, k ∈ depsOf n := by
  unfold kahnInit
  rw [hasKey_initDeg]
  rw [hasKey_initIds]
  constructor
  · rintro ((h | h) | ⟨n, hn, (⟨_, he⟩ | h)⟩)
    · simp [hasKey] at h
    · exact Or.inl h
    · exact Or.inl (he ▸ List.mem_map.mpr ⟨n, hn, rfl⟩)
    · exact Or.inr ⟨n, hn, h⟩
  · rintro (h | ⟨n, hn, h⟩)
    · exact Or.inl (Or.inr h)
    · exact Or.inr ⟨n, hn, Or.inr h⟩

theorem hasKey_kahnInit_id (nodes : List WorkflowNode) (n : WorkflowNode)
    (hn : n ∈ nodes) : hasKey (kahnInit nodes) n.id = true :=
  (hasKey_kahnInit_iff nodes n.id).mpr (Or.inl (List.mem_map.mpr ⟨n, hn, rfl⟩))

theorem filter_id_eq_of_nodup (ns : List WorkflowNode)
    (hid : (nodeIds ns).Nodup) (n : WorkflowNode) (hn : n ∈ ns) :
    ns.filter (fun x => x.id = n.id) = [n] := by
  induction ns with
  | nil => cases hn
  | cons n' rest ih =>
    simp only [nodeIds, List.map_cons, List.nodup_cons] at hid
    rcases List.mem_cons.mp hn with he | hm
    · subst he
      have hfil : rest.filter (fun x => x.id = n.id) = [] := by
        rw [List.filter_eq_nil]
        intro x hx
        simp only [decide_eq_true_eq]
        intro he
        exact hid.1 (he ▸ List.mem_map.mpr ⟨x, hx, rfl⟩)
      rw [List.filter_cons, if_pos (by simp), hfil]
    · by_cases he : n'.id = n.id
      · exact absurd (he ▸ (List.mem_map.mpr ⟨n, hm, rfl⟩)) hid.1
      · rw [List.filter_cons, if_neg (by simpa using he)]
        exact ih hid.2 hm

theorem filter_id_eq_nil (ns : List WorkflowNode) (k : Str)
    (hk : k ∉ nodeIds ns) : ns.filter (fun x => x.id = k) = [] := by
  rw [List.filter_eq_nil]
  intro x hx
  simp only [decide_eq_true_eq]
  intro he
  exact hk (he ▸ List.mem_map.mpr ⟨x, hx, rfl⟩)

theorem getD_kahnInit (nodes : List WorkflowNode)
    (hid : (nodeIds nodes).Nodup) (k : Str) :
    getD (kahnInit nodes) k = ((nodeDeps nodes k).length : Int) := by
  unfold kahnInit
  rw [getD_initDeg, getD_initIds]
  have h0 : getD ([] : IndegMap) k = 0 := rfl
  rw [h0]
  by_cases hk : k ∈ nodeIds nodes
  · obtain ⟨n, hn, he⟩ := List.mem_map.mp hk
    subst he
    rw [degSum, filter_id_eq_of_nodup nodes hid n hn,
      nodeDeps_eq_depsOf nodes hid n hn]
    simp
  · rw [degSum, filter_id_eq_nil nodes k hk, nodeDeps_eq_nil_of_not_mem nodes k hk]
    simp

theorem hasKey_congr (m m' : IndegMap) (h : m.map (·.1) = m'.map (·.1))
    (k : Str) : hasKey m k = hasKey m' k := by
  cases hb : hasKey m' k
  · cases hx : hasKey m k
    · rfl
    · have hmem := (hasKey_iff_mem_keys m k).mp hx
      rw [h] at hmem
      rw [(hasKey_iff_mem_keys m' k).mpr hmem] at hb
      cases hb
  · have hmem := (hasKey_iff_mem_keys m' k).mp hb
    rw [← h] at hmem
    exact (hasKey_iff_mem_keys m k).mpr hmem

theorem getD_of_mem_nodup (m : IndegMap) (hnd : (m.map (·.1)).Nodup)
    (p : Str × Int) (hp : p ∈ m) : getD m p.1 = p.2 := by
  induction m with
  | nil => cases hp
  | cons q rest ih =>
    obtain ⟨a, v⟩ := q
    simp only [List.map_cons, List.nodup_cons] at hnd
    rcases List.mem_cons.mp hp with he | hm
    · subst he
      rw [getD_cons, if_pos rfl]
    · have hne : a ≠ p.1 := by
        intro he
        exact hnd.1 (he ▸ List.mem_map.mpr ⟨p, hm, rfl⟩)
      rw [getD_cons, if_neg hne]
      exact ih hnd.2 hm

theorem mem_of_hasKey_nodup (m : IndegMap) (hnd : (m.map (·.1)).Nodup)
    (k : Str) (hk : hasKey m k = true) : (k, getD m k) ∈ m := by
  induction m with
  | nil => simp [hasKey] at hk
  | cons q rest ih =>
    obtain ⟨a, v⟩ := q
    simp only [List.map_cons, List.nodup_cons] at hnd
    rw [hasKey_cons] at hk
    simp only [Bool.or_eq_true, decide_eq_true_eq] at hk
    by_cases he : a = k
    · subst he
      rw [getD_cons, if_pos rfl]
      exact List.mem_cons_self _ _
    · rcases hk with h | h
      · exact absurd h he
      · rw [getD_cons, if_neg he]
        exact List.mem_cons_of_mem _ (ih hnd.2 h)

/-- Indicator equivalence for a decrement under unique ids. -/
theorem dec_indicator_iff (nodes : List WorkflowNode)
    (hid : (nodeIds nodes).Nodup) (cur k : Str) :
    (∃ n ∈ nodes, n.id = k ∧ cur ∈ depsOf n) ↔ cur ∈ nodeDeps nodes k := by
  constructor
  · rintro ⟨n, hn, he, hc⟩
    subst he
    rw [nodeDeps_eq_depsOf nodes hid n hn]
    exact hc
  · intro hc
    unfold nodeDeps at hc
    cases hf : nodes.find? (fun x => x.id = k) with
    | none =>
      rw [hf] at hc
      cases hc
    | some n =>
      rw [hf] at hc
      have hmem := List.mem_of_find?_eq_some hf
      have hp := List.find?_some hf
      simp only [decide_eq_true_eq] at hp
      exact ⟨n, hmem, hp, hc⟩

/-- First-occurrence index (`List.indexOf` over the model's strings). -/
def posOf : List Str → Str → Nat
  | [], _ => 0
  | a :: rest, x => if a = x then 0 else posOf rest x + 1

theorem posOf_lt_length (l : List Str) (x : Str) (hx : x ∈ l) :
    posOf l x < l.length := by
  induction l with
  | nil => cases hx
  | cons a rest ih =>
    simp only [posOf, List.length_cons]
    by_cases ha : a = x
    · simp [ha]
    · rw [if_neg ha]
      have : x ∈ rest := by
        rcases List.mem_cons.mp hx with he | hm
        · exact absurd he.symm ha
        · exact hm
      exact Nat.succ_lt_succ (ih this)

theorem get_posOf (l : List Str) (x : Str) (hx : x ∈ l) (h : posOf l x < l.length) :
    l.get ⟨posOf l x, h⟩ = x := by
  induction l with
  | nil => cases hx
  | cons a rest ih =>
    by_cases ha : a = x
    · simp [posOf, ha]
    · have hx' : x ∈ rest := by
        rcases List.mem_cons.mp hx with he | hm
        · exact absurd he.symm ha
        · exact hm
      have h' : posOf rest x < rest.length := posOf_lt_length rest x hx'
      simp only [posOf, if_neg ha, List.get_cons_succ]
      exact ih hx' h'

theorem posOf_take (l : List Str) (x : Str) (i : Nat) (hx : x ∈ l.take i) :
    posOf l x < i := by
  induction l generalizing i with
  | nil => simp at hx
  | cons a rest ih =>
    cases i with
    | zero => simp at hx
    | succ j =>
      simp only [List.take_succ_cons, List.mem_cons] at hx
      by_cases ha : a = x
      · simp [posOf, ha]
      · rcases hx with he | hm
        · exact absurd he.symm ha
        · simp only [posOf, if_neg ha]
          exact Nat.succ_lt_succ (ih j hm)

/-- The loop invariant of Kahn's algorithm, for a node list with pairwise
distinct ids.  `m` is the current in-degree record, `q` the queue, `order`
the emitted prefix. -/
structure KahnInv (nodes : List WorkflowNode) (m : IndegMap)
    (q order : List Str) : Prop where
  keys_eq : m.map (·.1) = (kahnInit nodes).map (·.1)
  vals : ∀ k, getD m k = ((nodeDeps nodes k).length : Int) -
      ((order.filter (fun c => decide (c ∈ nodeDeps nodes k))).length : Int)
  nodup_oq : (order ++ q).Nodup
  oq_keys : ∀ x ∈ order ++ q, hasKey (kahnInit nodes) x = true
  q_deps : ∀ x ∈ q, ∀ d ∈ nodeDeps nodes x, d ∈ order
  closed : ∀ i (h : i < order.length), ∀ d ∈ nodeDeps nodes (order.get ⟨i, h⟩),
      d ∈ order.take i
  low_mem : ∀ k, hasKey (kahnInit nodes) k = true → getD m k ≤ 0 → k ∈ order ++ q
  oq_low : ∀ x ∈ order ++ q, getD m x ≤ 0

theorem kahnInv_init (nodes : List WorkflowNode)
    (hid : (nodeIds nodes).Nodup) :
    KahnInv nodes (kahnInit nodes) (kahnSeed nodes) [] := by
  have hkeys := keys_kahnInit_nodup nodes
  have hseed_sub : ∀ x ∈ kahnSeed nodes, hasKey (kahnInit nodes) x = true := by
    intro x hx
    obtain ⟨p, hp, he⟩ := List.mem_map.mp hx
    rw [hasKey_iff_mem_keys]
    exact he ▸ List.mem_map.mpr ⟨p, List.mem_of_mem_filter hp, rfl⟩
  have hseed_zero : ∀ x ∈ kahnSeed nodes, getD (kahnInit nodes) x = 0 := by
    intro x hx
    obtain ⟨p, hp, he⟩ := List.mem_map.mp hx
    have hpm := List.mem_of_mem_filter hp
    have hpv := List.of_mem_filter hp
    simp only [decide_eq_true_eq] at hpv
    rw [← he, getD_of_mem_nodup _ hkeys p hpm, hpv]
  refine ⟨rfl, ?_, ?_, ?_, ?_, ?_, ?_, ?_⟩
  · intro k
    rw [getD_kahnInit nodes hid k]
    simp
  · simp only [List.nil_append]
    unfold kahnSeed
    have hsub : List.Sublist (((kahnInit nodes).filter (fun p => p.2 = 0)).map (·.1))
        ((kahnInit nodes).map (·.1)) :=
      List.Sublist.map _ (List.filter_sublist _)
    exact List.Nodup.sublist hsub hkeys
  · intro x hx
    exact hseed_sub x (by simpa using hx)
  · intro x hx d hd
    have h0 := hseed_zero x hx
    rw [getD_kahnInit nodes hid x] at h0
    have : nodeDeps nodes x = [] := by
      have : (nodeDeps nodes x).length = 0 := by omega
      exact List.length_eq_zero.mp this
    rw [this] at hd
    cases hd
  · intro i h
    simp at h
  · intro k hk h0
    simp only [List.nil_append]
    have hpm := mem_of_hasKey_nodup (kahnInit nodes) hkeys k hk
    have hz : getD (kahnInit nodes) k = 0 := by
      rw [getD_kahnInit nodes hid k] at h0 ⊢
      omega
    unfold kahnSeed
    refine List.mem_map.mpr ⟨(k, getD (kahnInit nodes) k), ?_, rfl⟩
    exact List.mem_filter.mpr ⟨hpm, by simp [hz]⟩
  · intro x hx
    simp only [List.nil_append] at hx
    rw [hseed_zero x hx]

/-- If a nodup list `L` already contains as many members of `deps` as
`deps` has entries, then every entry of `deps` lies in `L`. -/
theorem deps_subset_of_filter_full (L deps : List Str) (hL : L.Nodup)
    (hlen : (L.filter (fun c => decide (c ∈ deps))).length = deps.length) :
    ∀ d ∈ deps, d ∈ L := by
  intro d hd
  by_contra hdL
  have h1 : (L.filter (fun c => decide (c ∈ deps))).Nodup := hL.filter _
  have h2 : (L.filter (fun c => decide (c ∈ deps))).toFinset.card
      = (L.filter (fun c => decide (c ∈ deps))).length :=
    List.toFinset_card_of_nodup h1
  have h3 : (L.filter (fun c => decide (c ∈ deps))).toFinset
      ⊆ deps.toFinset \ {d} := by
    intro y hy
    rw [List.mem_toFinset, List.mem_filter] at hy
    simp only [decide_eq_true_eq] at hy
    rw [Finset.mem_sdiff, List.mem_toFinset, Finset.mem_singleton]
    exact ⟨hy.2, fun he => hdL (he ▸ hy.1)⟩
  have h4 := Finset.card_le_card h3
  have h5 : (deps.toFinset \ {d}).card = deps.toFinset.card - 1 := by
    rw [Finset.card_sdiff (by simp [List.mem_toFinset.mpr hd])]
    simp
  have h6 : deps.toFinset.card ≤ deps.length := deps.toFinset_card_le
  have h7 : 1 ≤ deps.toFinset.card :=
    Finset.card_pos.mpr ⟨d, List.mem_toFinset.mpr hd⟩
  omega

theorem kahnInv_step (nodes : List WorkflowNode) (hid : (nodeIds nodes).Nodup)
    (m : IndegMap) (cur : Str) (q order : List Str)
    (inv : KahnInv nodes m (cur :: q) order) :
    KahnInv nodes (innerLoop nodes cur m q).1 (innerLoop nodes cur m q).2
      (order ++ [cur]) := by
  have hkeysm : ∀ n ∈ nodes, hasKey m n.id = true := by
    intro n hn
    rw [hasKey_congr m (kahnInit nodes) inv.keys_eq n.id]
    exact hasKey_kahnInit_id nodes n hn
  obtain ⟨hkeys', hvals', hq'⟩ := innerLoop_spec nodes cur m q hid hkeysm
  have hδ : ∀ k, getD (innerLoop nodes cur m q).1 k
      = getD m k - (if cur ∈ nodeDeps nodes k then 1 else 0) := by
    intro k
    rw [hvals' k]
    by_cases hc : cur ∈ nodeDeps nodes k
    · rw [if_pos ((dec_indicator_iff nodes hid cur k).mpr hc), if_pos hc]
    · rw [if_neg (fun h => hc ((dec_indicator_iff nodes hid cur k).mp h)), if_neg hc]
  set newNodes := nodes.filter
      (fun n => decide (cur ∈ depsOf n) && decide (getD m n.id = 1)) with hnewNodes
  have hnew_mem : ∀ x ∈ newNodes.map (·.id),
      ∃ n ∈ nodes, n.id = x ∧ cur ∈ depsOf n ∧ getD m n.id = 1 := by
    intro x hx
    obtain ⟨n, hn, he⟩ := List.mem_map.mp hx
    have hmem := List.mem_of_mem_filter hn
    have hP := List.of_mem_filter hn
    simp only [Bool.and_eq_true, decide_eq_true_eq] at hP
    exact ⟨n, hmem, he, hP.1, hP.2⟩
  have hnew_getD : ∀ x ∈ newNodes.map (·.id), getD m x = 1 := by
    intro x hx
    obtain ⟨n, _, he, _, h1⟩ := hnew_mem x hx
    exact he ▸ h1
  have hnew_dep : ∀ x ∈ newNodes.map (·.id), cur ∈ nodeDeps nodes x := by
    intro x hx
    obtain ⟨n, hn, he, hcd, _⟩ := hnew_mem x hx
    subst he
    rw [nodeDeps_eq_depsOf nodes hid n hn]
    exact hcd
  have hnew_keys : ∀ x ∈ newNodes.map (·.id),
      hasKey (kahnInit nodes) x = true := by
    intro x hx
    obtain ⟨n, hn, he, _, _⟩ := hnew_mem x hx
    exact he ▸ hasKey_kahnInit_id nodes n hn
  have hnew_nodup : (newNodes.map (·.id)).Nodup := by
    have hsub : List.Sublist (newNodes.map (·.id)) (nodes.map (·.id)) :=
      List.Sublist.map _ (List.filter_sublist _)
    exact List.Nodup.sublist hsub hid
  have hnew_fresh : ∀ x ∈ newNodes.map (·.id), x ∉ order ++ cur :: q := by
    intro x hx hmem
    have := inv.oq_low x hmem
    have := hnew_getD x hx
    omega
  have hre : (order ++ [cur]) ++ (q ++ newNodes.map (·.id))
      = (order ++ cur :: q) ++ newNodes.map (·.id) := by
    simp [List.append_assoc]
  refine ⟨?_, ?_, ?_, ?_, ?_, ?_, ?_, ?_⟩
  · exact hkeys'.trans inv.keys_eq
  · intro k
    rw [hδ k, inv.vals k, List.filter_append, List.length_append]
    by_cases hc : cur ∈ nodeDeps nodes k
    · rw [if_pos hc]
      have : ([cur].filter (fun c => decide (c ∈ nodeDeps nodes k))).length = 1 := by
        simp [List.filter_cons, hc]
      rw [this]
      push_cast
      ring
    · rw [if_neg hc]
      have : ([cur].filter (fun c => decide (c ∈ nodeDeps nodes k))).length = 0 := by
        simp [List.filter_cons, hc]
      rw [this]
      push_cast
      ring
  · rw [hq', hre]
    rw [List.nodup_append]
    refine ⟨inv.nodup_oq, hnew_nodup, ?_⟩
    intro x hx hx'
    exact hnew_fresh x hx' hx
  · intro x hx
    rw [hq', hre] at hx
    rcases List.mem_append.mp hx with h | h
    · exact inv.oq_keys x h
    · exact hnew_keys x h
  · intro x hx
    rw [hq'] at hx
    rcases List.mem_append.mp hx with h | h
    · intro d hd
      exact List.mem_append_left _ (inv.q_deps x (List.mem_cons_of_mem _ h) d hd)
    · -- newly enqueued node: its in-degree just reached 0
      have hx1 : getD m x = 1 := hnew_getD x h
      have hxc : cur ∈ nodeDeps nodes x := hnew_dep x h
      have hz : getD (innerLoop nodes cur m q).1 x = 0 := by
        rw [hδ x, if_pos hxc, hx1]
        omega
      have hv := inv.vals x
      have hnodup : (order ++ [cur]).Nodup := by
        have h1 : (order ++ cur :: q).Nodup := inv.nodup_oq
        have h2 : List.Sublist (order ++ [cur]) (order ++ cur :: q) := by
          apply List.Sublist.append_left
          simp
        exact List.Nodup.sublist h2 h1
      have hlen : ((order ++ [cur]).filter
          (fun c => decide (c ∈ nodeDeps nodes x))).length
          = (nodeDeps nodes x).length := by
        have hδx := hδ x
        rw [if_pos hxc, hx1] at hδx
        rw [hz] at hδx
        have hv' := inv.vals x
        rw [List.filter_append, List.length_append]
        have : ([cur].filter (fun c => decide (c ∈ nodeDeps nodes x))).length = 1 := by
          simp [List.filter_cons, hxc]
        rw [this]
        omega
      exact deps_subset_of_filter_full (order ++ [cur]) (nodeDeps nodes x)
        hnodup hlen
  · intro i h d hd
    rw [List.length_append, List.length_singleton] at h
    by_cases hi : i < order.length
    · have hget : (order ++ [cur]).get ⟨i, by simpa using h⟩
          = order.get ⟨i, hi⟩ := by
        rw [List.get_append]
      rw [hget] at hd
      have := inv.closed i hi d hd
      rw [List.take_append_eq_append_take]
      exact List.mem_append_left _ this
    · have hi' : i = order.length := by omega
      subst hi'
      have hget : (order ++ [cur]).get ⟨order.length, by simpa using h⟩ = cur := by
        have := List.getElem_concat_length order cur order.length rfl
        simpa [List.get_eq_getElem] using this
      rw [hget] at hd
      have hsub := inv.q_deps cur (List.mem_cons_self _ _) d hd
      rw [List.take_append_eq_append_take]
      have ht : order.take order.length = order := by simp
      rw [ht]
      exact List.mem_append_left _ hsub
  · intro k hk h0
    by_cases hm0 : getD m k ≤ 0
    · have := inv.low_mem k hk hm0
      rw [hq', hre]
      exact List.mem_append_left _ this
    · have hδk := hδ k
      have hc : cur ∈ nodeDeps nodes k := by
        by_contra hcc
        rw [if_neg hcc] at hδk
        omega
      rw [if_pos hc] at hδk
      have h1 : getD m k = 1 := by omega
      obtain ⟨n, hn, he, hcd⟩ := (dec_indicator_iff nodes hid cur k).mpr hc
      have hP : (decide (cur ∈ depsOf n) && decide (getD m n.id = 1)) = true := by
        simp [hcd, he, h1]
      have hmemf : n ∈ newNodes := List.mem_filter.mpr ⟨hn, hP⟩
      have : k ∈ newNodes.map (·.id) := List.mem_map.mpr ⟨n, hmemf, he⟩
      rw [hq', hre]
      exact List.mem_append_right _ this
  · intro x hx
    rw [hq', hre] at hx
    rcases List.mem_append.mp hx with h | h
    · have := inv.oq_low x h
      have hδx := hδ x
      by_cases hc : cur ∈ nodeDeps nodes x
      · rw [if_pos hc] at hδx
        omega
      · rw [if_neg hc] at hδx
        omega
    · have hx1 : getD m x = 1 := hnew_getD x h
      have hxc : cur ∈ nodeDeps nodes x := hnew_dep x h
      have hδx := hδ x
      rw [if_pos hxc] at hδx
      omega

theorem kahnInv_loop (nodes : List WorkflowNode) (hid : (nodeIds nodes).Nodup) :
    ∀ (fuel : Nat) (m : IndegMap) (q order : List Str),
    2 * posSum m + q.length ≤ fuel →
    KahnInv nodes m q order →
    KahnInv nodes (topoLoopF nodes fuel m q order).2 []
      (topoLoopF nodes fuel m q order).1 := by
  intro fuel
  induction fuel with
  | zero =>
    intro m q order hf inv
    cases q with
    | nil => exact inv
    | cons cur rest => simp at hf
  | succ f ih =>
    intro m q order hf inv
    cases q with
    | nil => exact inv
    | cons cur rest =>
      have hstep := kahnInv_step nodes hid m cur rest order inv
      have hm := innerLoop_measure nodes cur m rest
      simp only [topoLoopF]
      apply ih
      · simp only [List.length_cons] at hf
        omega
      · exact hstep

/-- The invariant at the end of the loop, from the initial state. -/
theorem kahn_final (nodes : List WorkflowNode) (hid : (nodeIds nodes).Nodup) :
    KahnInv nodes (topoLoop nodes (kahnInit nodes) (kahnSeed nodes) []).2 []
      (topoLoop nodes (kahnInit nodes) (kahnSeed nodes) []).1 := by
  unfold topoLoop
  exact kahnInv_loop nodes hid _ _ _ _ (le_refl _) (kahnInv_init nodes hid)

/-- The order component of `topoSort`. -/
def topoOrder (nodes : List WorkflowNode) : List Str := (topoSort nodes).1

/-- The cycle set component of `topoSort`. -/
def topoCycles (nodes : List WorkflowNode) : List Str := (topoSort nodes).2

theorem topoOrder_nodup (nodes : List WorkflowNode)
    (hid : (nodeIds nodes).Nodup) : (topoOrder nodes).Nodup := by
  have inv := kahn_final nodes hid
  have h := inv.nodup_oq
  simpa using h

theorem topoOrder_ranks (nodes : List WorkflowNode)
    (hid : (nodeIds nodes).Nodup) (y x : Str) (he : DepEdge nodes y x)
    (hx : x ∈ topoOrder nodes) :
    y ∈ topoOrder nodes ∧ posOf (topoOrder nodes) y < posOf (topoOrder nodes) x := by
  have inv := kahn_final nodes hid
  have hy : y ∈ nodeDeps nodes x := ((DepEdge_iff nodes hid y x).mp he).2
  have hxo : x ∈ (topoLoop nodes (kahnInit nodes) (kahnSeed nodes) []).1 := hx
  have hlt := posOf_lt_length _ x hxo
  have hget := get_posOf _ x hxo hlt
  have hcl := inv.closed (posOf _ x) hlt
  rw [hget] at hcl
  have htake := hcl y hy
  constructor
  · exact List.mem_of_mem_take htake
  · exact posOf_take _ y _ htake

theorem filter_full_of_subset (L deps : List Str) (hL : L.Nodup)
    (hdnd : deps.Nodup) (hsub : ∀ d ∈ deps, d ∈ L) :
    (L.filter (fun c => decide (c ∈ deps))).length = deps.length := by
  have h1 : (L.filter (fun c => decide (c ∈ deps))).Nodup := hL.filter _
  have h2 : (L.filter (fun c => decide (c ∈ deps))).toFinset.card
      = (L.filter (fun c => decide (c ∈ deps))).length :=
    List.toFinset_card_of_nodup h1
  have h3 : (L.filter (fun c => decide (c ∈ deps))).toFinset = deps.toFinset := by
    ext y
    rw [List.mem_toFinset, List.mem_filter, List.mem_toFinset]
    simp only [decide_eq_true_eq]
    exact ⟨fun h => h.2, fun h => ⟨hsub y h, h⟩⟩
  have h4 : deps.toFinset.card = deps.length := List.toFinset_card_of_nodup hdnd
  rw [← h2, h3, h4]

theorem kahn_complete (nodes : List WorkflowNode)
    (hid : (nodeIds nodes).Nodup)
    (hsub : ∀ n ∈ nodes, depsOf n ⊆ nodeIds nodes)
    (hnd : ∀ n ∈ nodes, (depsOf n).Nodup) (hacyc : Acyclic nodes) :
    ∀ k, hasKey (kahnInit nodes) k = true → k ∈ topoOrder nodes := by
  have inv := kahn_final nodes hid
  intro k
  induction k using hacyc.induction with
  | _ x ihx =>
    intro hx
    by_cases hxid : x ∈ nodeIds nodes
    · obtain ⟨n, hn, he⟩ := List.mem_map.mp hxid
      subst he
      have hdeps : nodeDeps nodes n.id = depsOf n := nodeDeps_eq_depsOf nodes hid n hn
      have hdsub : ∀ d ∈ nodeDeps nodes n.id, d ∈ topoOrder nodes := by
        intro d hd
        rw [hdeps] at hd
        have hedge : DepEdge nodes d n.id := ⟨n, hn, rfl, hd⟩
        have hdid : d ∈ nodeIds nodes := hsub n hn hd
        exact ihx d hedge
          ((hasKey_kahnInit_iff nodes d).mpr (Or.inl hdid))
      have hford := inv.nodup_oq
      simp only [List.append_nil] at hford
      have hlen := filter_full_of_subset (topoOrder nodes) (nodeDeps nodes n.id)
        hford (hdeps ▸ hnd n hn) hdsub
      have hv := inv.vals n.id
      have hz : getD (topoLoop nodes (kahnInit nodes) (kahnSeed nodes) []).2 n.id
          = 0 := by
        rw [hv]
        rw [show ((topoLoop nodes (kahnInit nodes) (kahnSeed nodes) []).1.filter
            (fun c => decide (c ∈ nodeDeps nodes n.id))).length
            = (nodeDeps nodes n.id).length from hlen]
        omega
      have := inv.low_mem n.id hx (by omega)
      simpa using this
    · have hdeps : nodeDeps nodes x = [] := nodeDeps_eq_nil_of_not_mem nodes x hxid
      have hv := inv.vals x
      rw [hdeps] at hv
      simp only [List.length_nil] at hv
      have hz : getD (topoLoop nodes (kahnInit nodes) (kahnSeed nodes) []).2 x
          = 0 := by
        rw [hv]
        simp
      have := inv.low_mem x hx (by omega)
      simpa using this

theorem topoCycles_nil_of_acyclic (nodes : List WorkflowNode)
    (hid : (nodeIds nodes).Nodup)
    (hsub : ∀ n ∈ nodes, depsOf n ⊆ nodeIds nodes)
    (hnd : ∀ n ∈ nodes, (depsOf n).Nodup) (hacyc : Acyclic nodes) :
    topoCycles nodes = [] := by
  have inv := kahn_final nodes hid
  have hkeysF : ((topoLoop nodes (kahnInit nodes) (kahnSeed nodes) []).2.map
      (·.1)).Nodup := by
    rw [inv.keys_eq]
    exact keys_kahnInit_nodup nodes
  unfold topoCycles
  rw [topoSort_eq]
  have hfil : (topoLoop nodes (kahnInit nodes) (kahnSeed nodes) []).2.filter
      (fun p => 0 < p.2) = [] := by
    rw [List.filter_eq_nil_iff]
    intro p hp
    have hval := getD_of_mem_nodup _ hkeysF p hp
    have hkey : hasKey (kahnInit nodes) p.1 = true := by
      rw [hasKey_iff_mem_keys, ← inv.keys_eq]
      exact List.mem_map.mpr ⟨p, hp, rfl⟩
    have hmem : p.1 ∈ topoOrder nodes :=
      kahn_complete nodes hid hsub hnd hacyc p.1 hkey
    have hlow := inv.oq_low p.1 (by simpa using hmem)
    simp only [decide_eq_true_eq]
    omega
  rw [hfil]
  rfl

theorem topoOrder_perm_of_acyclic (nodes : List WorkflowNode)
    (hid : (nodeIds nodes).Nodup)
    (hsub : ∀ n ∈ nodes, depsOf n ⊆ nodeIds nodes)
    (hnd : ∀ n ∈ nodes, (depsOf n).Nodup) (hacyc : Acyclic nodes) :
    (topoOrder nodes).Perm (nodeIds nodes) := by
  have inv := kahn_final nodes hid
  rw [List.perm_ext_iff_of_nodup (topoOrder_nodup nodes hid) hid]
  intro x
  constructor
  · intro hx
    have hkey := inv.oq_keys x (by simpa using hx)
    rcases (hasKey_kahnInit_iff nodes x).mp hkey with h | ⟨n, hn, h⟩
    · exact h
    · exact hsub n hn h
  · intro hx
    exact kahn_complete nodes hid hsub hnd hacyc x
      ((hasKey_kahnInit_iff nodes x).mpr (Or.inl hx))

theorem transGen_ranks (nodes : List WorkflowNode)
    (hid : (nodeIds nodes).Nodup) (y x : Str)
    (h : Relation.TransGen (DepEdge nodes) y x) (hx : x ∈ topoOrder nodes) :
    y ∈ topoOrder nodes ∧ posOf (topoOrder nodes) y < posOf (topoOrder nodes) x := by
  induction h with
  | single he => exact topoOrder_ranks nodes hid _ _ he hx
  | tail _hyb he ih =>
    have hb := topoOrder_ranks nodes hid _ _ he hx
    have := ih hb.1
    exact ⟨this.1, lt_trans this.2 hb.2⟩

/-- A dependency cycle forces a non-empty cycle set. -/
theorem topoCycles_ne_nil_of_hasCycle (nodes : List WorkflowNode)
    (hid : (nodeIds nodes).Nodup) (hcyc : HasCycle nodes) :
    topoCycles nodes ≠ [] := by
  intro hnil
  obtain ⟨x, hx⟩ := hcyc
  have inv := kahn_final nodes hid
  have hkeysF : ((topoLoop nodes (kahnInit nodes) (kahnSeed nodes) []).2.map
      (·.1)).Nodup := by
    rw [inv.keys_eq]
    exact keys_kahnInit_nodup nodes
  -- from an empty cycle set, every key drained to ≤ 0, so every key was emitted
  have hall : ∀ k, hasKey (kahnInit nodes) k = true → k ∈ topoOrder nodes := by
    intro k hk
    have hkF : hasKey (topoLoop nodes (kahnInit nodes) (kahnSeed nodes) []).2 k
        = true := by
      rw [hasKey_congr _ (kahnInit nodes) inv.keys_eq]
      exact hk
    have hpm := mem_of_hasKey_nodup _ hkeysF k hkF
    have hle : getD (topoLoop nodes (kahnInit nodes) (kahnSeed nodes) []).2 k
        ≤ 0 := by
      by_contra hgt
      have : (k, getD (topoLoop nodes (kahnInit nodes) (kahnSeed nodes) []).2 k)
          ∈ (topoLoop nodes (kahnInit nodes) (kahnSeed nodes) []).2.filter
            (fun p => 0 < p.2) := by
        refine List.mem_filter.mpr ⟨hpm, by simp; omega⟩
      have hmapmem : k ∈ topoCycles nodes := by
        unfold topoCycles
        rw [topoSort_eq]
        exact List.mem_map.mpr ⟨_, this, rfl⟩
      rw [hnil] at hmapmem
      cases hmapmem
    have := inv.low_mem k hk hle
    simpa using this
  -- the cycle witness is a key: it has an incoming edge
  obtain ⟨b, _, he⟩ := (Relation.TransGen.tail'_iff).mp hx
  have hxid : x ∈ nodeIds nodes := ((DepEdge_iff nodes hid b x).mp he).1
  have hxo : x ∈ topoOrder nodes :=
    hall x ((hasKey_kahnInit_iff nodes x).mpr (Or.inl hxid))
  have := transGen_ranks nodes hid x x hx hxo
  omega

-- ---------------------------------------------------------------------------
-- topoSort depends only on ids and dependency lists
-- ---------------------------------------------------------------------------

theorem innerLoop_congr (ns ns' : List WorkflowNode)
    (h : ns.map (fun n => (n.id, n.dependsOn))
       = ns'.map (fun n => (n.id, n.dependsOn))) :
    ∀ cur m q, innerLoop ns cur m q = innerLoop ns' cur m q := by
  induction ns generalizing ns' with
  | nil =>
    cases ns' with
    | nil => intro cur m q; rfl
    | cons n' rest' => simp at h
  | cons n rest ih =>
    cases ns' with
    | nil => simp at h
    | cons n' rest' =>
      simp only [List.map_cons, List.cons.injEq, Prod.mk.injEq] at h
      intro cur m q
      have hdeps : depsOf n = depsOf n' := by
        unfold depsOf
        rw [h.1.2]
      simp only [innerLoop, hdeps, h.1.1]
      split
      · exact ih rest' (by simpa using h.2) cur _ _
      · exact ih rest' (by simpa using h.2) cur m q

theorem initIds_congr (ns ns' : List WorkflowNode)
    (h : ns.map (fun n => (n.id, n.dependsOn))
       = ns'.map (fun n => (n.id, n.dependsOn))) :
    ∀ m, initIds ns m = initIds ns' m := by
  induction ns generalizing ns' with
  | nil =>
    cases ns' with
    | nil => intro m; rfl
    | cons n' rest' => simp at h
  | cons n rest ih =>
    cases ns' with
    | nil => simp at h
    | cons n' rest' =>
      simp only [List.map_cons, List.cons.injEq, Prod.mk.injEq] at h
      intro m
      simp only [initIds, h.1.1]
      exact ih rest' (by simpa using h.2) _

theorem initDeg_congr (ns ns' : List WorkflowNode)
    (h : ns.map (fun n => (n.id, n.dependsOn))
       = ns'.map (fun n => (n.id, n.dependsOn))) :
    ∀ m, initDeg ns m = initDeg ns' m := by
  induction ns generalizing ns' with
  | nil =>
    cases ns' with
    | nil => intro m; rfl
    | cons n' rest' => simp at h
  | cons n rest ih =>
    cases ns' with
    | nil => simp at h
    | cons n' rest' =>
      simp only [List.map_cons, List.cons.injEq, Prod.mk.injEq] at h
      intro m
      have hdeps : depsOf n = depsOf n' := by
        unfold depsOf
        rw [h.1.2]
      simp only [initDeg, hdeps, h.1.1]
      exact ih rest' (by simpa using h.2) _

theorem topoLoopF_congr (ns ns' : List WorkflowNode)
    (h : ns.map (fun n => (n.id, n.dependsOn))
       = ns'.map (fun n => (n.id, n.dependsOn))) :
    ∀ fuel m q order, topoLoopF ns fuel m q order = topoLoopF ns' fuel m q order := by
  intro fuel
  induction fuel with
  | zero =>
    intro m q order
    cases q <;> rfl
  | succ f ih =>
    intro m q order
    cases q with
    | nil => rfl
    | cons cur rest =>
      simp only [topoLoopF]
      rw [innerLoop_congr ns ns' h cur m rest]
      exact ih _ _ _

/-- `topoSort` reads only the id and `dependsOn` fields: its output is a
deterministic function of those. -/
theorem topoSort_congr (ns ns' : List WorkflowNode)
    (h : ns.map (fun n => (n.id, n.dependsOn))
       = ns'.map (fun n => (n.id, n.dependsOn))) :
    topoSort ns = topoSort ns' := by
  have hinit : kahnInit ns = kahnInit ns' := by
    unfold kahnInit
    rw [initIds_congr ns ns' h, initDeg_congr ns ns' h]
  rw [topoSort_eq, topoSort_eq]
  unfold topoLoop kahnSeed
  rw [hinit, topoLoopF_congr ns ns' h]

/-- A ranking function certifies acyclicity. -/
theorem acyclic_of_rank (nodes : List WorkflowNode) (rank : Str → Nat)
    (h : ∀ y x, DepEdge nodes y x → rank y < rank x) : Acyclic nodes := by
  have hs : Subrelation (DepEdge nodes) (InvImage (· < ·) rank) :=
    fun {y x} he => h y x he
  exact Subrelation.wf hs (InvImage.wf rank (Nat.lt_wfRel.wf))

/-- Acyclicity excludes transitive cycles (sanity bridge between the two
formulations used by the claims). -/
theorem acyclic_not_hasCycle (nodes : List WorkflowNode)
    (hacyc : Acyclic nodes) : ¬ HasCycle nodes := by
  rintro ⟨x, hx⟩
  have hwf : WellFounded (Relation.TransGen (DepEdge nodes)) := hacyc.transGen
  have hno : ∀ y, Acc (Relation.TransGen (DepEdge nodes)) y →
      ¬ Relation.TransGen (DepEdge nodes) y y := by
    intro y hacc
    induction hacc with
    | intro z _hz ih =>
      intro hzz
      exact ih z hzz hzz
  exact hno x (hwf.apply x) hx

/-- Node `a` of the concrete examples: no dependencies. -/
def c1NodeA : WorkflowNode :=
  ⟨str "a", str "plugin.http.get", str "v1", JVal.obj [], none, none, none⟩

/-- A valid two-node workflow: `b` depends on `a` once. -/
def c1GoodNodes : List WorkflowNode :=
  [c1NodeA,
   ⟨str "b", str "plugin.transform.jq", str "v1", JVal.obj [],
    some [str "a"], none, none⟩]

/-- The duplicate-dependency workflow: `b` lists `a` twice. -/
def c1BadNodes : List WorkflowNode :=
  [c1NodeA,
   ⟨str "b", str "plugin.transform.jq", str "v1", JVal.obj [],
    some [str "a", str "a"], none, none⟩]

theorem c1GoodNodes_acyclic : Acyclic c1GoodNodes := by
  apply acyclic_of_rank c1GoodNodes (fun s => if s = str "b" then 1 else 0)
  rintro y x ⟨n, hn, hix, hdep⟩
  simp only [c1GoodNodes, List.mem_cons, List.not_mem_nil, or_false] at hn
  rcases hn with rfl | rfl
  · simp [depsOf, c1NodeA] at hdep
  · simp only [depsOf, Option.getD_some, List.mem_singleton] at hdep
    subst hdep
    subst hix
    simp only [str]
    decide

theorem c1BadNodes_acyclic : Acyclic c1BadNodes := by
  apply acyclic_of_rank c1BadNodes (fun s => if s = str "b" then 1 else 0)
  rintro y x ⟨n, hn, hix, hdep⟩
  simp only [c1BadNodes, List.mem_cons, List.not_mem_nil, or_false] at hn
  rcases hn with rfl | rfl
  · simp [depsOf, c1NodeA] at hdep
  · simp only [depsOf, Option.getD_some, List.mem_cons, List.not_mem_nil,
      or_false, or_self] at hdep
    subst hdep
    subst hix
    simp only [str]
    decide

/-- Claim C1 (amended): for every workflow whose nodes carry pairwise
distinct ids (the data model's invariant), whose `dependsOn` lists contain
no duplicate entries and name only nodes of the workflow, and whose
dependency graph is acyclic, `topoSort` returns an empty cycle set and an
order that is a duplicate-free permutation of the node ids in which every
node appears strictly after each node named in its `dependsOn` list; and
the output is a deterministic function of the node list, reading only the
`(id, dependsOn)` projection of each node (in particular ties are broken
by the FIFO queue discipline of the implementation, a function of the
declaration order alone). -/
theorem C1_amended_toposort_correct (nodes : List WorkflowNode)
    (hid : (nodeIds nodes).Nodup)
    (hsub : ∀ n ∈ nodes, ∀ d ∈ depsOf n, d ∈ nodeIds nodes)
    (hnd : ∀ n ∈ nodes, (depsOf n).Nodup)
    (hacyc : Acyclic nodes) :
    topoCycles nodes = []
    ∧ (topoOrder nodes).Perm (nodeIds nodes)
    ∧ (topoOrder nodes).Nodup
    ∧ (∀ n ∈ nodes, ∀ d ∈ depsOf n,
        posOf (topoOrder nodes) d < posOf (topoOrder nodes) n.id)
    ∧ (∀ ns', ns'.map (fun n => (n.id, n.dependsOn))
          = nodes.map (fun n => (n.id, n.dependsOn)) → topoSort ns' = topoSort nodes) := by
  have hsub' : ∀ n ∈ nodes, depsOf n ⊆ nodeIds nodes := fun n hn d hd => hsub n hn d hd
  refine ⟨topoCycles_nil_of_acyclic nodes hid hsub' hnd hacyc,
    topoOrder_perm_of_acyclic nodes hid hsub' hnd hacyc,
    topoOrder_nodup nodes hid, ?_, ?_⟩
  · intro n hn d hd
    have hedge : DepEdge nodes d n.id := ⟨n, hn, rfl, hd⟩
    have hido : n.id ∈ topoOrder nodes :=
      kahn_complete nodes hid hsub' hnd hacyc n.id
        (hasKey_kahnInit_id nodes n hn)
    exact (topoOrder_ranks nodes hid d n.id hedge hido).2
  · intro ns' h
    exact topoSort_congr ns' nodes h

/-- Claim C1 counterexample: the workflow `[a, b]` with `b.dependsOn =
["a", "a"]` has an acyclic dependency graph and every `dependsOn` entry
names a node of the workflow, yet `topoSort` reports a non-empty cycle
set (the duplicate entry makes `b`'s in-degree 2 while the pop of `a`
decrements it only once). -/
theorem C1_counterexample_dup_deps :
    Acyclic c1BadNodes
    ∧ (∀ n ∈ c1BadNodes, ∀ d ∈ depsOf n, d ∈ nodeIds c1BadNodes)
    ∧ topoCycles c1BadNodes ≠ [] :=
  ⟨c1BadNodes_acyclic, by decide, by decide⟩

/-- Claim C1 witness: the amended theorem applied to the concrete
two-node workflow `[a, b]` with `b.dependsOn = ["a"]`. -/
theorem C1_witness :
    topoCycles c1GoodNodes = []
    ∧ (topoOrder c1GoodNodes).Perm (nodeIds c1GoodNodes)
    ∧ (topoOrder c1GoodNodes).Nodup
    ∧ (∀ n ∈ c1GoodNodes, ∀ d ∈ depsOf n,
        posOf (topoOrder c1GoodNodes) d < posOf (topoOrder c1GoodNodes) n.id)
    ∧ (∀ ns', ns'.map (fun n => (n.id, n.dependsOn))
          = c1GoodNodes.map (fun n => (n.id, n.dependsOn))
          → topoSort ns' = topoSort c1GoodNodes) :=
  C1_amended_toposort_correct c1GoodNodes (by decide) (by decide) (by decide)
    c1GoodNodes_acyclic

-- ---------------------------------------------------------------------------
-- $ref resolution (resolveRef / resolveInput)
-- ---------------------------------------------------------------------------

/-- A canonical array index key: the strings JS arrays expose as own
properties (`"0"`, `"1"`, ..., no leading zeros). -/
def canonIndex (k : Str) : Option Nat :=
  if k ≠ [] ∧ k.all isDigitC ∧ (k = ['0'] ∨ k.head? ≠ some '0') then
    some (parseDigitsAux k 0)
  else none

/-- JS own-property read `v[k]` guarded by `typeof v === "object" && v !==
null && k in v`: object keys; array canonical indices and `"length"`.
Prototype-chain members are not modelled (see the header). -/
def jsFieldGet (v : JVal) (k : Str) : Option JVal :=
  match v with
  | .obj fs => objGet fs k
  | .arr xs =>
    if k = str "length" then some (.num xs.length)
    else
      match canonIndex k with
      | some i =>
        match xs.get? i with
        | some x => some x
        | none => none
      | none => none
  | _ => none

/-- Field step of `resolveRef`: throws `$ref field not found` when the
property is missing or the value is not an object. -/
def refField (path : Str) (val : JVal) (k : Str) : Except Str JVal :=
  match jsFieldGet val k with
  | some v => .ok v
  | none => .error (str "$ref field not found: " ++ path)

/-- Index step of `resolveRef`: `!Array.isArray(val) || idx < 0 || idx >=
val.length` throws; `idx = none` models a `NaN` parse, whose comparisons
are all false, so on an array it indexes to `undefined`. -/
def refIndex (path : Str) (val : JVal) (idx : Option Int) : Except Str JVal :=
  match val, idx with
  | .arr xs, some i =>
    if i < 0 ∨ (xs.length : Int) ≤ i then
      .error (str "$ref index out of range: " ++ path)
    else .ok (xs.getD i.toNat .undef)
  | .arr _, none => .ok .undef
  | _, _ => .error (str "$ref index out of range: " ++ path)

/-- The token walk of `resolveRef` over `parts.slice(4)`. -/
def resolveRefWalk (path : Str) : JVal → List Str → Except Str JVal
  | val, [] => .ok val
  | val, token :: rest =>
    if '[' ∈ token ∧ token.getLast? = some ']' then
      let pieces := splitOnC '[' token
      let head := pieces.headD []
      let idxRaw := (pieces.drop 1).headD []
      let idx := parseIntJS (removeFirst ']' idxRaw)
      match (if head ≠ [] then refField path val head else .ok val) with
      | .error e => .error e
      | .ok v1 =>
        match refIndex path v1 idx with
        | .error e => .error e
        | .ok v2 => resolveRefWalk path v2 rest
    else
      match refField path val token with
      | .error e => .error e
      | .ok v => resolveRefWalk path v rest

/-- `resolveRef(path, context)`: validates the `$.nodes.<id>.output.<...>`
shape, looks the node up in the context and walks the remaining tokens. -/
def resolveRef (path : Str) (context : List (Str × JObj)) : Except Str JVal :=
  match splitOnC '.' path with
  | p0 :: p1 :: nid :: p3 :: tok :: toks =>
    if p0 = str "$" ∧ p1 = str "nodes" ∧ p3 = str "output" then
      match (context.find? (fun p => p.1 = nid)).map (·.2) with
      | none => .error (str "$ref to unknown node: " ++ nid)
      | some out => resolveRefWalk path (.obj out) (tok :: toks)
    else .error (str "Unsupported $ref path: " ++ path)
  | _ => .error (str "Unsupported $ref path: " ++ path)

/-- Recognises a single-key `{"$ref": "<path>"}` object. -/
def isRefObj : JObj → Option Str
  | [(k, .str p)] => if k = str "$ref" then some p else none
  | _ => none

mutual

/-- `resolveInput`: walks the template, replacing `$ref` objects by the
referenced value, recursing member-wise into objects and arrays, passing
scalars through. -/
def resolveInput : JVal → List (Str × JObj) → Except Str JVal
  | .obj fs, ctx =>
    match isRefObj fs with
    | some p => resolveRef p ctx
    | none =>
      match resolveFields fs ctx with
      | .ok fs' => .ok (.obj fs')
      | .error e => .error e
  | .arr xs, ctx =>
    match resolveList xs ctx with
    | .ok xs' => .ok (.arr xs')
    | .error e => .error e
  | v, _ => .ok v

/-- Member-wise resolution of an object's fields, first error wins. -/
def resolveFields : List (Str × JVal) → List (Str × JObj) →
    Except Str (List (Str × JVal))
  | [], _ => .ok []
  | (k, v) :: rest, ctx =>
    match resolveInput v ctx with
    | .error e => .error e
    | .ok v' =>
      match resolveFields rest ctx with
      | .error e => .error e
      | .ok rest' => .ok ((k, v') :: rest')

/-- Member-wise resolution of an array, first error wins. -/
def resolveList : List JVal → List (Str × JObj) → Except Str (List JVal)
  | [], _ => .ok []
  | v :: rest, ctx =>
    match resolveInput v ctx with
    | .error e => .error e
    | .ok v' =>
      match resolveList rest ctx with
      | .error e => .error e
      | .ok rest' => .ok (v' :: rest')

end

/-- `context[nodeId] = output` (JS record assignment). -/
def ctxSet (ctx : List (Str × JObj)) (k : Str) (v : JObj) :
    List (Str × JObj) :=
  if ctx.any (fun p => p.1 = k) then
    ctx.map (fun p => if p.1 = k then (p.1, v) else p)
  else ctx ++ [(k, v)]

-- ---------------------------------------------------------------------------
-- Claim C5: reference-resolution round trip
-- ---------------------------------------------------------------------------

/-- A structured selector of a reference path: a plain field token, or a
field token with a trailing bracketed index (`field[2]`; an empty field
part is a bare `[2]`). -/
inductive RefSel where
  | field : Str → RefSel
  | index : Str → Nat → RefSel
deriving DecidableEq

/-- Renders a selector as a path token. -/
def renderSel : RefSel → Str
  | .field f => f
  | .index f i => f ++ '[' :: (natToStr i ++ [']'])

/-- Renders a full `$.nodes.<id>.output.<tok>...` reference path. -/
def renderRefPath (nid : Str) (sels : List RefSel) : Str :=
  joinSep '.' ([str "$", str "nodes", nid, str "output"] ++ sels.map renderSel)

/-- Spec-side selection outcome (§4.2): the selected value, a missing
intermediate field, or an index out of range / applied to a non-sequence. -/
inductive SelRes where
  | ok : JVal → SelRes
  | fieldErr : SelRes
  | idxErr : SelRes

/-- Structural selection following the spec's resolution rules (§4.2): each
token addresses a field, then (if present) an index into the resulting
sequence; a missing field is a field error, an out-of-range index or an
index into a non-sequence is an index error. -/
def specRefSelect : JVal → List RefSel → SelRes
  | v, [] => .ok v
  | v, .field f :: rest =>
    match jsFieldGet v f with
    | some v' => specRefSelect v' rest
    | none => .fieldErr
  | v, .index f i :: rest =>
    match (if f ≠ [] then jsFieldGet v f else some v) with
    | none => .fieldErr
    | some v1 =>
      match v1 with
      | .arr xs =>
        if i < xs.length then specRefSelect (xs.getD i .undef) rest else .idxErr
      | _ => .idxErr

/-- Maps a spec-side outcome to the exception behaviour of `resolveRef`. -/
def refSelExcept (path : Str) : SelRes → Except Str JVal
  | .ok v => .ok v
  | .fieldErr => .error (str "$ref field not found: " ++ path)
  | .idxErr => .error (str "$ref index out of range: " ++ path)

/-- Selector tokens that survive the textual rendering: no `.` (the path
separator) and no `[` (the index separator) in the field part. -/
def validSel : RefSel → Prop
  | .field f => '.' ∉ f ∧ '[' ∉ f
  | .index f _ => '.' ∉ f ∧ '[' ∉ f

instance : DecidablePred validSel := by
  intro s
  cases s <;> simp only [validSel] <;> infer_instance

theorem renderSel_no_dot (s : RefSel) (hs : validSel s) : '.' ∉ renderSel s := by
  cases s with
  | field f => exact hs.1
  | index f i =>
    intro hmem
    simp only [renderSel, List.mem_append, List.mem_cons, List.mem_singleton,
      List.not_mem_nil, or_false] at hmem
    rcases hmem with h | h | h | h
    · exact hs.1 h
    · exact absurd h (by decide)
    · exact absurd (natToStr_all_digits i _ h) (by decide)
    · exact absurd h (by decide)

theorem resolveRefWalk_spec (path : Str) (sels : List RefSel)
    (hv : ∀ s ∈ sels, validSel s) (v : JVal) :
    resolveRefWalk path v (sels.map renderSel)
      = refSelExcept path (specRefSelect v sels) := by
  induction sels generalizing v with
  | nil => rfl
  | cons s rest ih =>
    have hs := hv s (by simp)
    have hrest : ∀ t ∈ rest, validSel t := fun t ht => hv t (by simp [ht])
    cases s with
    | field f =>
      have hnb : ¬('[' ∈ renderSel (RefSel.field f)
          ∧ (renderSel (RefSel.field f)).getLast? = some ']') := by
        rintro ⟨h, _⟩
        exact hs.2 h
      simp only [List.map_cons, resolveRefWalk, if_neg hnb]
      simp only [renderSel, specRefSelect, refField]
      cases hf : jsFieldGet v f with
      | none => rfl
      | some v' => exact ih hrest v'
    | index f i =>
      have htok : renderSel (RefSel.index f i)
          = f ++ '[' :: (natToStr i ++ [']']) := rfl
      have hbr : '[' ∈ renderSel (RefSel.index f i) := by
        rw [htok]
        simp
      have hlast : (renderSel (RefSel.index f i)).getLast? = some ']' := by
        rw [htok]
        rw [show f ++ '[' :: (natToStr i ++ [']'])
            = (f ++ '[' :: natToStr i) ++ [']'] by simp]
        exact List.getLast?_concat _
      have hpieces : splitOnC '[' (renderSel (RefSel.index f i))
          = [f, natToStr i ++ [']']] := by
        rw [htok, splitOnC_append_sep _ _ _ hs.2,
          splitOnC_no_sep _ _ (by
            simp only [List.mem_append, List.mem_singleton]
            rintro (h | h)
            · exact absurd (natToStr_all_digits i _ h) (by decide)
            · cases h)]
      have hidxraw : removeFirst ']' (natToStr i ++ [']']) = natToStr i := by
        rw [show natToStr i ++ [']'] = natToStr i ++ ']' :: [] by rfl,
          removeFirst_append _ _ _ (fun h =>
            absurd (natToStr_all_digits i _ h) (by decide))]
        simp
      have hcond : ('[' ∈ renderSel (RefSel.index f i)
          ∧ (renderSel (RefSel.index f i)).getLast? = some ']') := ⟨hbr, hlast⟩
      simp only [List.map_cons, resolveRefWalk, if_pos hcond, hpieces]
      simp only [List.headD, List.drop, hidxraw, parseIntJS_natToStr]
      simp only [specRefSelect]
      cases hf : (if f ≠ [] then jsFieldGet v f else some v) with
      | none =>
        have : (if f ≠ [] then refField path v f else Except.ok v)
            = .error (str "$ref field not found: " ++ path) := by
          by_cases he : f ≠ []
          · rw [if_pos he] at hf ⊢
            simp [refField, hf]
          · rw [if_neg he] at hf
            cases hf
        rw [this]
        rfl
      | some v1 =>
        have : (if f ≠ [] then refField path v f else Except.ok v) = .ok v1 := by
          by_cases he : f ≠ []
          · rw [if_pos he] at hf ⊢
            simp [refField, hf]
          · rw [if_neg he] at hf ⊢
            simpa using hf
        rw [this]
        cases v1 with
        | arr xs =>
          by_cases hlt : i < xs.length
          · have hri : refIndex path (.arr xs) (some (i : Int))
                = .ok (xs.getD i .undef) := by
              simp only [refIndex]
              rw [if_neg (by push_cast; omega)]
              simp
            simp only [hri, if_pos hlt]
            exact ih hrest _
          · have hri : refIndex path (.arr xs) (some (i : Int))
                = .error (str "$ref index out of range: " ++ path) := by
              simp only [refIndex]
              rw [if_pos (by push_cast; omega)]
            simp only [hri, if_neg hlt]
            rfl
        | null => rfl
        | undef => rfl
        | bool b => rfl
        | num n => rfl
        | str s => rfl
        | obj fs => rfl

theorem find?_append_self_ctx (ctx : List (Str × JObj)) (k : Str) (v : JObj)
    (hk : ∀ q ∈ ctx, ¬(q.1 = k)) :
    ((ctx ++ [(k, v)]).find? (fun p => p.1 = k)).map (·.2) = some v := by
  induction ctx with
  | nil =>
    rw [List.nil_append, List.find?_cons_of_pos _ (by simp)]
    rfl
  | cons p rest ih =>
    rw [List.cons_append, List.find?_cons_of_neg _ (by simp [hk p (by simp)])]
    exact ih (fun q hq => hk q (List.mem_cons_of_mem _ hq))

theorem find?_map_overwrite (ctx : List (Str × JObj)) (k : Str) (v : JObj)
    (hk : ctx.any (fun p => p.1 = k) = true) :
    (((ctx.map (fun p => if p.1 = k then (p.1, v) else p)).find?
        (fun p => p.1 = k)).map (·.2)) = some v := by
  induction ctx with
  | nil => simp only [List.any_nil, Bool.false_eq_true] at hk
  | cons p rest ih =>
    obtain ⟨a, w⟩ := p
    rw [List.map_cons]
    by_cases ha : a = k
    · have he : (if ((a, w) : Str × JObj).1 = k then (((a, w) : Str × JObj).1, v)
          else (a, w)) = (a, v) := by simp [ha]
      rw [he, List.find?_cons_of_pos _ (by simp [ha])]
      rfl
    · have he : (if ((a, w) : Str × JObj).1 = k then (((a, w) : Str × JObj).1, v)
          else (a, w)) = (a, w) := by simp [ha]
      rw [he, List.find?_cons_of_neg _ (by simp [ha])]
      simp only [List.any_cons, Bool.or_eq_true, decide_eq_true_eq] at hk
      rcases hk with h | h
      · exact absurd h ha
      · exact ih h

theorem ctxSet_find_self (ctx : List (Str × JObj)) (k : Str) (v : JObj) :
    ((ctxSet ctx k v).find? (fun p => p.1 = k)).map (·.2) = some v := by
  unfold ctxSet
  split
  · next hk => exact find?_map_overwrite ctx k v hk
  · next hk =>
    have hall : ∀ q ∈ ctx, ¬(q.1 = k) := by
      intro q hq he
      exact hk (List.any_eq_true.mpr ⟨q, hq, by simp [he]⟩)
    exact find?_append_self_ctx ctx k v hall

theorem resolveRef_render (ctx : List (Str × JObj)) (nid : Str)
    (sels : List RefSel) (hnid : '.' ∉ nid) (hsels : ∀ s ∈ sels, validSel s)
    (hne : sels ≠ []) :
    resolveRef (renderRefPath nid sels) ctx
      = match (ctx.find? (fun p => p.1 = nid)).map (·.2) with
        | none => .error (str "$ref to unknown node: " ++ nid)
        | some out =>
          refSelExcept (renderRefPath nid sels) (specRefSelect (.obj out) sels) := by
  have hnodot : ∀ p ∈ [str "$", str "nodes", nid, str "output"]
      ++ sels.map renderSel, '.' ∉ p := by
    intro p hp
    rcases List.mem_append.mp hp with h | h
    · simp only [List.mem_cons, List.mem_singleton, List.not_mem_nil, or_false] at h
      rcases h with rfl | rfl | rfl | rfl
      · decide
      · decide
      · exact hnid
      · decide
    · obtain ⟨s, hs, he⟩ := List.mem_map.mp h
      exact he ▸ renderSel_no_dot s (hsels s hs)
  have hsplit : splitOnC '.' (renderRefPath nid sels)
      = [str "$", str "nodes", nid, str "output"] ++ sels.map renderSel :=
    splitOnC_joinSep '.' _ (by simp) hnodot
  cases sels with
  | nil => exact absurd rfl hne
  | cons s rest =>
    unfold resolveRef
    rw [hsplit]
    simp only [List.map_cons, List.cons_append, List.nil_append]
    have hcond : (True ∧ True ∧ True) := ⟨trivial, trivial, trivial⟩
    rw [if_pos hcond]
    cases hctx : (ctx.find? (fun p => p.1 = nid)).map (·.2) with
    | none => rfl
    | some out =>
      rw [show (renderSel s :: rest.map renderSel)
          = (s :: rest).map renderSel by simp]
      exact resolveRefWalk_spec (renderRefPath nid (s :: rest)) (s :: rest)
        hsels (.obj out)

/-- Claim C5: reference-resolution round trip.  Writing an output `out`
for node `nid` into the context and resolving the rendered path
`$.nodes.<nid>.output.<tokens>` returns exactly the structurally selected
value; a path whose node id is absent from the context, whose intermediate
field is absent, or whose index is out of range or applied to a
non-sequence resolves to the corresponding `$ref` error. -/
theorem C5_resolveRef_roundtrip (ctx : List (Str × JObj)) (nid : Str)
    (sels : List RefSel) (out : JObj)
    (hnid : '.' ∉ nid) (hsels : ∀ s ∈ sels, validSel s) (hne : sels ≠ []) :
    (resolveRef (renderRefPath nid sels) (ctxSet ctx nid out)
      = refSelExcept (renderRefPath nid sels) (specRefSelect (.obj out) sels))
    ∧ (∀ v, specRefSelect (.obj out) sels = .ok v →
      resolveRef (renderRefPath nid sels) (ctxSet ctx nid out) = .ok v)
    ∧ (specRefSelect (.obj out) sels = .fieldErr →
      resolveRef (renderRefPath nid sels) (ctxSet ctx nid out)
        = .error (str "$ref field not found: " ++ renderRefPath nid sels))
    ∧ (specRefSelect (.obj out) sels = .idxErr →
      resolveRef (renderRefPath nid sels) (ctxSet ctx nid out)
        = .error (str "$ref index out of range: " ++ renderRefPath nid sels))
    ∧ (ctx.find? (fun p => p.1 = nid) = none →
      resolveRef (renderRefPath nid sels) ctx
        = .error (str "$ref to unknown node: " ++ nid)) := by
  have hmain : resolveRef (renderRefPath nid sels) (ctxSet ctx nid out)
      = refSelExcept (renderRefPath nid sels) (specRefSelect (.obj out) sels) := by
    rw [resolveRef_render (ctxSet ctx nid out) nid sels hnid hsels hne,
      ctxSet_find_self]
  refine ⟨hmain, ?_, ?_, ?_, ?_⟩
  · intro v hv
    rw [hmain, hv]
    rfl
  · intro hv
    rw [hmain, hv]
    rfl
  · intro hv
    rw [hmain, hv]
    rfl
  · intro hnone
    rw [resolveRef_render ctx nid sels hnid hsels hne, hnone]
    rfl

/-- Concrete node output used by the C5 witness. -/
def c5Out : JObj :=
  [(str "body", JVal.obj [(str "value", JVal.str (str "x"))]),
   (str "items", JVal.arr [JVal.num 1, JVal.num 2, JVal.num 3])]

/-- Concrete selector list used by the C5 witness. -/
def c5Sels : List RefSel := [RefSel.field (str "body"), RefSel.field (str "value")]

/-- Claim C5 witness: the round-trip theorem applied to a concrete context
write and path, evaluated to the stored value. -/
theorem C5_witness :
    resolveRef (renderRefPath (str "n") c5Sels) (ctxSet [] (str "n") c5Out)
      = Except.ok (JVal.str (str "x"))
    ∧ resolveRef (renderRefPath (str "n") [RefSel.index (str "items") 7])
        (ctxSet [] (str "n") c5Out)
      = Except.error (str "$ref index out of range: "
          ++ renderRefPath (str "n") [RefSel.index (str "items") 7]) := by
  constructor
  · have h := (C5_resolveRef_roundtrip [] (str "n") c5Sels c5Out (by decide)
      (by decide) (by decide)).1
    rw [h]
    rfl
  · have h := (C5_resolveRef_roundtrip [] (str "n") [RefSel.index (str "items") 7]
      c5Out (by decide) (by decide) (by decide)).2.2.2.1
    exact h rfl

-- ---------------------------------------------------------------------------
-- jq-like expression evaluator (jqEval / jqSingle)
-- ---------------------------------------------------------------------------

/-- Searches for the first `[digits]` occurrence (the regex `/\[(\d+)\]/`
applied to the index part of a token). -/
def findBracketNum : Str → Option Nat
  | [] => none
  | c :: rest =>
    if c = '[' then
      let digits := rest.takeWhile isDigitC
      let after := rest.drop digits.length
      if digits ≠ [] ∧ after.head? = some ']' then some (parseDigitsAux digits 0)
      else findBracketNum rest
    else findBracketNum rest

/-- Field access of the jq walk; throws `field not found: <token>`. -/
def jqField (cur : JVal) (k : Str) : Except Str JVal :=
  match jsFieldGet cur k with
  | some v => .ok v
  | none => .error (str "field not found: " ++ k)

/-- The token loop of `jqSingle`: empty tokens are skipped; a token with a
bracket addresses a field (when the part before `[` is non-empty) and then
an index, where a non-array or an out-of-range index returns `null` for
the whole expression; a plain token addresses a field. -/
def jqTokens : JVal → List Str → Except Str JVal
  | cur, [] => .ok cur
  | cur, tok :: rest =>
    if tok = [] then jqTokens cur rest
    else if '[' ∈ tok then
      let head := tok.takeWhile (fun c => ¬(c = '['))
      let indexPart := tok.dropWhile (fun c => ¬(c = '['))
      match (if head ≠ [] then jqField cur head else .ok cur) with
      | .error e => .error e
      | .ok v1 =>
        match findBracketNum indexPart with
        | none => .error (str "invalid index: " ++ indexPart)
        | some idx =>
          match v1 with
          | .arr xs =>
            if xs.length ≤ idx then .ok JVal.null
            else jqTokens (xs.getD idx .undef) rest
          | _ => .ok JVal.null
    else
      match jqField cur tok with
      | .error e => .error e
      | .ok v => jqTokens v rest

/-- One pipeline stage (`jqSingle`). -/
def jqSingle (data : JVal) (expr : Str) : Except Str JVal :=
  if expr = [] ∨ expr = ['.'] then .ok data
  else if expr = str "to_entries" then
    match data with
    | .obj fs => .ok (.arr (fs.map (fun p =>
        .obj [(str "key", .str p.1), (str "value", p.2)])))
    | _ => .error (str "to_entries requires object input")
  else if expr = str "keys" then
    match data with
    | .obj fs => .ok (.arr (fs.map (fun p => .str p.1)))
    | _ => .error (str "keys requires object input")
  else if expr = str "length" then
    match data with
    | .arr xs => .ok (.num xs.length)
    | .obj fs => .ok (.num fs.length)
    | .str s => .ok (.num s.length)
    | _ => .error (str "length requires array, object, or string")
  else if expr.head? ≠ some '.' then
    .error (str "expression must start with '.', got: " ++ expr)
  else
    let path := expr.tail
    if path = [] then .ok data
    else jqTokens data (splitOnC '.' path)

/-- Folds the pipe stages left to right. -/
def jqPipe : JVal → List Str → Except Str JVal
  | cur, [] => .ok cur
  | cur, p :: rest =>
    match jqSingle cur p with
    | .error e => .error e
    | .ok v => jqPipe v rest

/-- `jqEval(data, expr)`: the pipe-separated evaluator. -/
def jqEval (data : JVal) (expr : Str) : Except Str JVal :=
  if expr = [] ∨ expr = ['.'] then .ok data
  else jqPipe data ((splitOnC '|' expr).map trimStr)

-- ---------------------------------------------------------------------------
-- Claim C8: the jq evaluator
-- ---------------------------------------------------------------------------

/-- Characters that survive the jq path rendering untouched: not the path
separator, not a bracket, not a pipe, not whitespace. -/
def plainChar (c : Char) : Bool :=
  !(c = '.') && !(c = '[') && !(c = '|') && !(isWsC c)

theorem plainChar_of_digit (c : Char) (h : isDigitC c = true) :
    plainChar c = true := by
  simp only [isDigitC, Bool.and_eq_true, decide_eq_true_eq] at h
  obtain ⟨h1, h2⟩ := h
  simp only [plainChar, Bool.and_eq_true, Bool.not_eq_true', decide_eq_false_iff_not,
    Bool.not_eq_true]
  refine ⟨⟨⟨?_, ?_⟩, ?_⟩, ?_⟩
  · intro he
    subst he
    revert h1 h2
    decide
  · intro he
    subst he
    revert h1 h2
    decide
  · intro he
    subst he
    revert h1 h2
    decide
  · exact Bool.eq_false_iff.mpr (not_ws_of_digit c (by simp [isDigitC, h1, h2]))

/-- Selector tokens that survive the jq rendering: the field part consists
of plain characters, and a plain field token is non-empty (an empty token
would be skipped by the walk). -/
def validJqSel : RefSel → Prop
  | .field f => f ≠ [] ∧ ∀ c ∈ f, plainChar c = true
  | .index f _ => ∀ c ∈ f, plainChar c = true

instance : DecidablePred validJqSel := by
  intro s
  cases s <;> simp only [validJqSel] <;> infer_instance

/-- Renders a dotted jq path `.tok.tok...` from selectors. -/
def renderJqPath (sels : List RefSel) : Str :=
  '.' :: joinSep '.' (sels.map renderSel)

/-- Spec-side outcome of a jq dotted-path walk: the selected value, the
early `null` (out-of-range or non-sequence index), or a missing field
(with the offending token). -/
inductive JqRes where
  | ok : JVal → JqRes
  | nullEarly : JqRes
  | fieldErr : Str → JqRes

/-- Structural jq selection following the spec's §4.3 rules: each token
addresses a field then (if present) an index; indexing a too-short or
non-sequence value yields the empty result; a missing field is fatal. -/
def jqSpecSelect : JVal → List RefSel → JqRes
  | v, [] => .ok v
  | v, .field f :: rest =>
    match jsFieldGet v f with
    | some v' => jqSpecSelect v' rest
    | none => .fieldErr f
  | v, .index f i :: rest =>
    match (if f ≠ [] then jsFieldGet v f else some v) with
    | none => .fieldErr f
    | some v1 =>
      match v1 with
      | .arr xs =>
        if xs.length ≤ i then .nullEarly
        else jqSpecSelect (xs.getD i .undef) rest
      | _ => .nullEarly

/-- Maps a spec-side jq outcome to the evaluator's behaviour. -/
def jqResExcept : JqRes → Except Str JVal
  | .ok v => .ok v
  | .nullEarly => .ok JVal.null
  | .fieldErr f => .error (str "field not found: " ++ f)

theorem takeWhile_all_append (p : Char → Bool) (f : Str) (a : Char) (t : Str)
    (hf : ∀ c ∈ f, p c = true) (ha : p a = false) :
    (f ++ a :: t).takeWhile p = f := by
  induction f with
  | nil => simp [List.takeWhile_cons, ha]
  | cons c rest ih =>
    rw [List.cons_append, List.takeWhile_cons, if_pos (hf c (by simp))]
    rw [ih (fun d hd => hf d (List.mem_cons_of_mem _ hd))]

theorem dropWhile_all_append (p : Char → Bool) (f : Str) (a : Char) (t : Str)
    (hf : ∀ c ∈ f, p c = true) (ha : p a = false) :
    (f ++ a :: t).dropWhile p = a :: t := by
  induction f with
  | nil => simp [List.dropWhile_cons, ha]
  | cons c rest ih =>
    rw [List.cons_append, List.dropWhile_cons, if_pos (hf c (by simp))]
    exact ih (fun d hd => hf d (List.mem_cons_of_mem _ hd))

theorem findBracketNum_render (i : Nat) :
    findBracketNum ('[' :: (natToStr i ++ [']'])) = some i := by
  have hd := natToStr_all_digits i
  have htw : (natToStr i ++ [']']).takeWhile isDigitC = natToStr i := by
    rw [show natToStr i ++ [']'] = natToStr i ++ ']' :: [] by rfl]
    exact takeWhile_all_append isDigitC _ _ _ hd (by decide)
  have hparse : parseDigitsAux (natToStr i) 0 = i := by
    have h := parseDigitsAux_natToStr i 0
    simpa using h
  have hdrop : (List.drop (natToStr i).length (natToStr i ++ [']'])).head?
      = some ']' := by
    rw [List.drop_left]
    rfl
  simp only [findBracketNum, if_true]
  rw [htw]
  rw [if_pos ⟨natToStr_ne_nil i, hdrop⟩, hparse]

theorem jqTokens_render (sels : List RefSel)
    (hv : ∀ s ∈ sels, validJqSel s) (v : JVal) :
    jqTokens v (sels.map renderSel) = jqResExcept (jqSpecSelect v sels) := by
  induction sels generalizing v with
  | nil => rfl
  | cons s rest ih =>
    have hs := hv s (by simp)
    have hrest : ∀ t ∈ rest, validJqSel t := fun t ht => hv t (by simp [ht])
    cases s with
    | field f =>
      obtain ⟨hne, hpl⟩ := hs
      have hnb : '[' ∉ f := by
        intro hmem
        have := hpl '[' hmem
        simp [plainChar] at this
      simp only [List.map_cons, renderSel, jqTokens]
      rw [if_neg hne, if_neg hnb]
      simp only [jqSpecSelect, jqField]
      cases hf : jsFieldGet v f with
      | none => rfl
      | some v' => exact ih hrest v'
    | index f i =>
      have hpl : ∀ c ∈ f, plainChar c = true := hs
      have hnb : '[' ∉ f := by
        intro hmem
        have := hpl '[' hmem
        simp [plainChar] at this
      have htok : renderSel (RefSel.index f i)
          = f ++ '[' :: (natToStr i ++ [']']) := rfl
      have htne : renderSel (RefSel.index f i) ≠ [] := by
        rw [htok]
        cases f <;> simp
      have hbr : '[' ∈ renderSel (RefSel.index f i) := by
        rw [htok]
        simp
      have hplain : ∀ c ∈ f, (decide ¬(c = '[') : Bool) = true := by
        intro c hc
        have hcc : ¬(c = '[') := fun he => hnb (he ▸ hc)
        simpa using hcc
      have hhead : (renderSel (RefSel.index f i)).takeWhile (fun c => ¬(c = '[')) = f := by
        rw [htok]
        exact takeWhile_all_append _ _ _ _ hplain (by simp)
      have hip : (renderSel (RefSel.index f i)).dropWhile (fun c => ¬(c = '[')) =
          '[' :: (natToStr i ++ [']']) := by
        rw [htok]
        exact dropWhile_all_append _ _ _ _ hplain (by simp)
      simp only [List.map_cons, jqTokens]
      rw [if_neg htne, if_pos hbr, hhead, hip, findBracketNum_render i]
      simp only [jqSpecSelect, jqField]
      cases hf : (if f ≠ [] then jsFieldGet v f else some v) with
      | none =>
        have hfe : (if f ≠ [] then (match jsFieldGet v f with
            | some w => Except.ok w
            | none => Except.error (str "field not found: " ++ f)) else Except.ok v)
            = Except.error (str "field not found: " ++ f) := by
          by_cases he : f ≠ []
          · rw [if_pos he] at hf ⊢
            rw [hf]
          · rw [if_neg he] at hf
            cases hf
        rw [hfe]
        rfl
      | some v1 =>
        have hfo : (if f ≠ [] then (match jsFieldGet v f with
            | some w => Except.ok w
            | none => Except.error (str "field not found: " ++ f)) else Except.ok v)
            = Except.ok v1 := by
          by_cases he : f ≠ []
          · rw [if_pos he] at hf ⊢
            rw [hf]
          · rw [if_neg he] at hf ⊢
            simpa using hf
        rw [hfo]
        cases v1 with
        | arr xs =>
          by_cases hlt : xs.length ≤ i
          · simp only [if_pos hlt]
            rfl
          · simp only [if_neg hlt]
            exact ih hrest _
        | null => rfl
        | undef => rfl
        | bool b => rfl
        | num n => rfl
        | str s => rfl
        | obj fs => rfl

theorem plainChar_props (c : Char) (h : plainChar c = true) :
    ¬(c = '.') ∧ ¬(c = '[') ∧ ¬(c = '|') ∧ isWsC c = false := by
  simp only [plainChar, Bool.and_eq_true, Bool.not_eq_true', decide_eq_false_iff_not,
    Bool.not_eq_true] at h
  exact ⟨h.1.1.1, h.1.1.2, h.1.2, h.2⟩

theorem renderSel_chars (s : RefSel) (hs : validJqSel s) :
    ∀ c ∈ renderSel s, ¬(c = '.') ∧ ¬(c = '|') ∧ isWsC c = false := by
  cases s with
  | field f =>
    intro c hc
    obtain ⟨h1, _, h3, h4⟩ := plainChar_props c (hs.2 c hc)
    exact ⟨h1, h3, h4⟩
  | index f i =>
    intro c hc
    simp only [renderSel, List.mem_append, List.mem_cons, List.mem_singleton,
      List.not_mem_nil, or_false] at hc
    rcases hc with h | h | h | h
    · obtain ⟨h1, _, h3, h4⟩ := plainChar_props c (hs c h)
      exact ⟨h1, h3, h4⟩
    · subst h
      exact ⟨by decide, by decide, by decide⟩
    · obtain ⟨h1, _, h3, h4⟩ := plainChar_props c
        (plainChar_of_digit c (natToStr_all_digits i c h))
      exact ⟨h1, h3, h4⟩
    · subst h
      exact ⟨by decide, by decide, by decide⟩

theorem joinSep_chars (ps : List Str) (prop : Char → Prop)
    (hdot : prop '.') (h : ∀ p ∈ ps, ∀ c ∈ p, prop c) :
    ∀ c ∈ joinSep '.' ps, prop c := by
  induction ps with
  | nil => intro c hc; cases hc
  | cons p rest ih =>
    cases rest with
    | nil =>
      intro c hc
      exact h p (by simp) c hc
    | cons q qs =>
      intro c hc
      rw [show joinSep '.' (p :: q :: qs) = p ++ '.' :: joinSep '.' (q :: qs)
        from rfl] at hc
      rcases List.mem_append.mp hc with hm | hm
      · exact h p (by simp) c hm
      · rcases List.mem_cons.mp hm with he | hm'
        · exact he ▸ hdot
        · exact ih (fun r hr => h r (List.mem_cons_of_mem _ hr)) c hm'

theorem trimStr_eq_self (s : Str) (h : ∀ c ∈ s, isWsC c = false) :
    trimStr s = s := by
  unfold trimStr
  have h1 : s.dropWhile isWsC = s := by
    cases s with
    | nil => rfl
    | cons a rest =>
      rw [List.dropWhile_cons, if_neg (by simp [h a (by simp)])]
  rw [h1]
  have h2 : s.reverse.dropWhile isWsC = s.reverse := by
    cases hr : s.reverse with
    | nil => rfl
    | cons a rest =>
      have ha : a ∈ s := List.mem_reverse.mp (by rw [hr]; simp)
      rw [List.dropWhile_cons, if_neg (by simp [h a ha])]
  rw [h2, List.reverse_reverse]

theorem jqEval_render (v : JVal) (sels : List RefSel) (hne : sels ≠ [])
    (hv : ∀ s ∈ sels, validJqSel s) :
    jqEval v (renderJqPath sels) = jqResExcept (jqSpecSelect v sels) := by
  set joined := joinSep '.' (sels.map renderSel) with hjoined
  have hjchars : ∀ c ∈ joined, ¬(c = '|') ∧ isWsC c = false := by
    apply joinSep_chars
    · exact ⟨by decide, by decide⟩
    · intro p hp c hc
      obtain ⟨s, hs, he⟩ := List.mem_map.mp hp
      obtain ⟨_, h2, h3⟩ := renderSel_chars s (hv s hs) c (he ▸ hc)
      exact ⟨h2, h3⟩
  have hjne : joined ≠ [] := by
    rw [hjoined]
    cases sels with
    | nil => exact absurd rfl hne
    | cons s rest =>
      cases rest with
      | nil =>
        simp only [List.map_cons, List.map_nil, joinSep]
        cases s with
        | field f =>
          have hvf : f ≠ [] ∧ ∀ c ∈ f, plainChar c = true :=
            hv (RefSel.field f) (by simp)
          exact hvf.1
        | index f i =>
          simp only [renderSel]
          cases f <;> simp
      | cons q qs =>
        simp only [List.map_cons, joinSep]
        cases renderSel s <;> simp
  have hexpr : renderJqPath sels = '.' :: joined := rfl
  have hnp : '|' ∉ renderJqPath sels := by
    rw [hexpr]
    intro hmem
    rcases List.mem_cons.mp hmem with he | hm
    · cases he
    · exact (hjchars '|' hm).1 rfl
  have hnw : ∀ c ∈ renderJqPath sels, isWsC c = false := by
    rw [hexpr]
    intro c hc
    rcases List.mem_cons.mp hc with he | hm
    · subst he
      decide
    · exact (hjchars c hm).2
  have hne1 : ¬(renderJqPath sels = [] ∨ renderJqPath sels = ['.']) := by
    rintro (h | h)
    · rw [hexpr] at h
      cases h
    · rw [hexpr] at h
      have := congrArg List.tail h
      simp only [List.tail_cons] at this
      exact hjne this
  have hhead : ∀ t : String, (renderJqPath sels).head? = some '.' := by
    intro _
    rw [hexpr]
    rfl
  unfold jqEval
  rw [if_neg hne1, splitOnC_no_sep '|' _ hnp]
  simp only [List.map_cons, List.map_nil, trimStr_eq_self _ hnw, jqPipe]
  have hsingle : jqSingle v (renderJqPath sels)
      = jqTokens v (sels.map renderSel) := by
    unfold jqSingle
    rw [if_neg hne1]
    have hte : ¬(renderJqPath sels = str "to_entries") := by
      intro he
      have h := congrArg List.head? he
      rw [hexpr, List.head?_cons] at h
      exact absurd h (by decide)
    have hke : ¬(renderJqPath sels = str "keys") := by
      intro he
      have h := congrArg List.head? he
      rw [hexpr, List.head?_cons] at h
      exact absurd h (by decide)
    have hle : ¬(renderJqPath sels = str "length") := by
      intro he
      have h := congrArg List.head? he
      rw [hexpr, List.head?_cons] at h
      exact absurd h (by decide)
    rw [if_neg hte, if_neg hke, if_neg hle,
      if_neg (by rw [hexpr]; simp)]
    have htail : (renderJqPath sels).tail = joined := by
      rw [hexpr]
      rfl
    rw [htail, if_neg hjne]
    have hsplit : splitOnC '.' joined = sels.map renderSel := by
      rw [hjoined]
      apply splitOnC_joinSep
      · simpa using hne
      · intro p hp
        obtain ⟨s, hs, he⟩ := List.mem_map.mp hp
        intro hc
        exact (renderSel_chars s (hv s hs) '.' (he ▸ hc)).1 rfl
    rw [hsplit]
  rw [hsingle, jqTokens_render sels hv v]
  cases jqSpecSelect v sels <;> rfl

/-- Claim C8: the expression evaluator.  The five concrete cases of the
spec hold by computation, and for every input a rendered dotted path
evaluates to the structurally selected value, with a missing field a fatal
`field not found` error and an out-of-range (or non-sequence) index an
early `null` result. -/
theorem C8_jq_evaluator :
    (jqEval (JVal.obj [(str "a", JVal.num 1), (str "b", JVal.num 2)]) (str "keys")
      = .ok (.arr [.str (str "a"), .str (str "b")]))
    ∧ (jqEval (JVal.obj [(str "a", JVal.num 1)]) (str "to_entries")
      = .ok (.arr [.obj [(str "key", .str (str "a")), (str "value", JVal.num 1)]]))
    ∧ (jqEval (JVal.obj [(str "a", JVal.obj
          [(str "b", JVal.arr [JVal.num 10, JVal.num 20])])]) (str ".a.b[0]")
      = .ok (JVal.num 10))
    ∧ (jqEval (JVal.obj [(str "a", JVal.obj
          [(str "b", JVal.arr [JVal.num 10, JVal.num 20])])]) (str ".a.b[5]")
      = .ok JVal.null)
    ∧ (jqEval (JVal.arr [JVal.num 1, JVal.num 2, JVal.num 3]) (str "length")
      = .ok (JVal.num 3))
    ∧ (∀ v sels, sels ≠ [] → (∀ s ∈ sels, validJqSel s) →
      (jqEval v (renderJqPath sels) = jqResExcept (jqSpecSelect v sels))
      ∧ (∀ f, jqSpecSelect v sels = .fieldErr f →
          jqEval v (renderJqPath sels) = .error (str "field not found: " ++ f))
      ∧ (jqSpecSelect v sels = .nullEarly →
          jqEval v (renderJqPath sels) = .ok JVal.null)) := by
  refine ⟨rfl, rfl, rfl, rfl, rfl, ?_⟩
  intro v sels hne hv
  have h := jqEval_render v sels hne hv
  refine ⟨h, ?_, ?_⟩
  · intro f hf
    rw [h, hf]
    rfl
  · intro hf
    rw [h, hf]
    rfl

/-- Claim C8 witness: the general conjunct applied to a concrete input,
one out-of-range index (null) and one missing field (fatal error). -/
theorem C8_witness :
    jqEval (JVal.obj [(str "xs", JVal.arr [JVal.num 5])])
        (renderJqPath [RefSel.field (str "xs"), RefSel.index [] 3])
      = .ok JVal.null
    ∧ jqEval (JVal.obj [(str "xs", JVal.arr [JVal.num 5])])
        (renderJqPath [RefSel.field (str "nope")])
      = .error (str "field not found: " ++ str "nope") := by
  constructor
  · exact (C8_jq_evaluator.2.2.2.2.2 _ _ (by decide) (by decide)).2.2 rfl
  · exact (C8_jq_evaluator.2.2.2.2.2 _ _ (by decide) (by decide)).2.1 _ rfl

-- ---------------------------------------------------------------------------
-- JSON serialisation and parsing (JSON.stringify / JSON.parse), used by
-- substituteQuery.  Numbers are modelled as integers, matching the value
-- model; a fractional or exponent-bearing number literal is rejected by
-- the model parser (no claim exercises one).
-- ---------------------------------------------------------------------------

/-- JSON string escaping of one character (`JSON.stringify`). -/
def escapeChar (c : Char) : Str :=
  if c = '"' then ['\\', '"']
  else if c = '\\' then ['\\', '\\']
  else if c = '\n' then ['\\', 'n']
  else if c = '\r' then ['\\', 'r']
  else if c = '\t' then ['\\', 't']
  else if c = '\x08' then ['\\', 'b']
  else if c = '\x0c' then ['\\', 'f']
  else if c.toNat < 32 then
    ['\\', 'u', '0', '0', Nat.digitChar (c.toNat / 16), Nat.digitChar (c.toNat % 16)]
  else [c]

/-- Serialises a string literal with quotes and escapes. -/
def stringifyStr (s : Str) : Str :=
  '"' :: (s.map escapeChar).join ++ ['"']

mutual

/-- `JSON.stringify` over the value model.  `undefined` is omitted inside
objects and serialised as `null` inside arrays, as in JS; a top-level
`undefined` does not occur (inputs are objects). -/
def stringifyJson : JVal → Str
  | .null => str "null"
  | .undef => str "null"
  | .bool true => str "true"
  | .bool false => str "false"
  | .num i => intToStr i
  | .str s => stringifyStr s
  | .arr xs => '[' :: (joinSep ',' (stringifyArr xs) ++ [']'])
  | .obj fs => '\x7b' :: (joinSep ',' (stringifyObj fs) ++ ['\x7d'])

/-- Array member serialisation (`undefined` becomes `null`). -/
def stringifyArr : List JVal → List Str
  | [] => []
  | v :: rest => stringifyJson v :: stringifyArr rest

/-- Object member serialisation (`undefined`-valued keys are omitted). -/
def stringifyObj : List (Str × JVal) → List Str
  | [] => []
  | (k, v) :: rest =>
    match v with
    | .undef => stringifyObj rest
    | _ => (stringifyStr k ++ ':' :: stringifyJson v) :: stringifyObj rest

end

/-- Hexadecimal digit value. -/
def parseHex (c : Char) : Option Nat :=
  if '0' ≤ c ∧ c ≤ '9' then some (digitVal c)
  else if 'a' ≤ c ∧ c ≤ 'f' then some (c.toNat - 'a'.toNat + 10)
  else if 'A' ≤ c ∧ c ≤ 'F' then some (c.toNat - 'A'.toNat + 10)
  else none

/-- Parses a JSON string body after the opening quote, returning the
content and the remainder after the closing quote. -/
def parseStringBody : Str → Option (Str × Str)
  | [] => none
  | '"' :: rest => some ([], rest)
  | '\\' :: rest =>
    match rest with
    | [] => none
    | e :: rest' =>
      if e = 'u' then
        match rest' with
        | h1 :: h2 :: h3 :: h4 :: rest'' =>
          match parseHex h1, parseHex h2, parseHex h3, parseHex h4 with
          | some a, some b, some c, some d =>
            match parseStringBody rest'' with
            | some (content, after) =>
              some (Char.ofNat (((a * 16 + b) * 16 + c) * 16 + d) :: content, after)
            | none => none
          | _, _, _, _ => none
        | _ => none
      else
        match (if e = '"' then some '"'
          else if e = '\\' then some '\\'
          else if e = '/' then some '/'
          else if e = 'b' then some '\x08'
          else if e = 'f' then some '\x0c'
          else if e = 'n' then some '\n'
          else if e = 'r' then some '\r'
          else if e = 't' then some '\t'
          else none) with
        | some c =>
          match parseStringBody rest' with
          | some (content, after) => some (c :: content, after)
          | none => none
        | none => none
  | c :: rest =>
    if c.toNat < 32 then none
    else
      match parseStringBody rest with
      | some (content, after) => some (c :: content, after)
      | none => none

/-- Parses a JSON integer literal (optional minus, digits, no leading
zeros); a following `.`, `e` or `E` (a non-integer number) is rejected by
the model. -/
def parseNumber (s : Str) : Option (Int × Str) :=
  let (neg, s₁) : Bool × Str :=
    if s.head? = some '-' then (true, s.tail) else (false, s)
  let digits := s₁.takeWhile isDigitC
  let rest := s₁.drop digits.length
  if digits = [] then none
  else if digits.length > 1 ∧ digits.head? = some '0' then none
  else if rest.head? = some '.' ∨ rest.head? = some 'e' ∨ rest.head? = some 'E' then
    none
  else
    let v : Int := parseDigitsAux digits 0
    some (if neg then -v else v, rest)

/-- Builds an object from members in textual order by sequential
assignment, as JS object construction does: a duplicate key keeps its
first position but takes the last value. -/
def buildObj (ps : List (Str × JVal)) : JObj :=
  ps.foldl (fun m p => objSet m p.1 p.2) []

mutual

/-- Recursive-descent `JSON.parse` with fuel; all recursive calls pass
the decremented fuel, so the recursion is structural and
kernel-reducible. -/
def parseVal : Nat → Str → Option (JVal × Str)
  | 0, _ => none
  | fuel + 1, input =>
    let s := input.dropWhile isWsC
    match s with
    | 'n' :: 'u' :: 'l' :: 'l' :: rest => some (.null, rest)
    | 't' :: 'r' :: 'u' :: 'e' :: rest => some (.bool true, rest)
    | 'f' :: 'a' :: 'l' :: 's' :: 'e' :: rest => some (.bool false, rest)
    | '"' :: rest =>
      match parseStringBody rest with
      | some (content, after) => some (.str content, after)
      | none => none
    | '[' :: rest =>
      let r := rest.dropWhile isWsC
      match r with
      | ']' :: after => some (.arr [], after)
      | _ =>
        match parseElems fuel r with
        | some (xs, after) => some (.arr xs, after)
        | none => none
    | '\x7b' :: rest =>
      let r := rest.dropWhile isWsC
      match r with
      | '\x7d' :: after => some (.obj [], after)
      | _ =>
        match parseMembers fuel r with
        | some (fs, after) => some (.obj (buildObj fs), after)
        | none => none
    | _ =>
      match parseNumber s with
      | some (i, rest) => some (.num i, rest)
      | none => none

/-- Array elements: value (`,` value)* `]`. -/
def parseElems : Nat → Str → Option (List JVal × Str)
  | 0, _ => none
  | fuel + 1, s =>
    match parseVal fuel s with
    | none => none
    | some (v, rest) =>
      match rest.dropWhile isWsC with
      | ',' :: rest' =>
        match parseElems fuel rest' with
        | some (xs, after) => some (v :: xs, after)
        | none => none
      | ']' :: after => some ([v], after)
      | _ => none

/-- Object members: string `:` value (`,` string `:` value)* `}`, as raw
pairs in textual order. -/
def parseMembers : Nat → Str → Option (List (Str × JVal) × Str)
  | 0, _ => none
  | fuel + 1, s =>
    match s.dropWhile isWsC with
    | '"' :: rest =>
      match parseStringBody rest with
      | none => none
      | some (key, afterKey) =>
        match afterKey.dropWhile isWsC with
        | ':' :: afterColon =>
          match parseVal fuel afterColon with
          | none => none
          | some (v, rest') =>
            match rest'.dropWhile isWsC with
            | ',' :: rest'' =>
              match parseMembers fuel rest'' with
              | some (fs, after) => some ((key, v) :: fs, after)
              | none => none
            | '\x7d' :: after => some ([(key, v)], after)
            | _ => none
        | _ => none
    | _ => none

end

/-- `JSON.parse`: a single value with only whitespace allowed after it.
Fuel bounds the call depth; at least one character is consumed every two
levels, so `2 * length + 4` always suffices. -/
def parseJson (s : Str) : Option JVal :=
  match parseVal (2 * s.length + 4) s with
  | some (v, rest) => if rest.dropWhile isWsC = [] then some v else none
  | none => none

/-- The `{query}` placeholder token. -/
def queryTok : Str := str "{query}"

/-- `json.replace(/\x7bquery\x7d/g, query)`: replaces every occurrence of
the placeholder, left to right, non-overlapping.  (The `$`-pattern
expansion JS applies to the replacement string is not modelled; no claim
exercises a query containing `$`-patterns.) -/
def replaceQueryF (q : Str) : Nat → Str → Str
  | 0, s => s
  | fuel + 1, s =>
    if s.take 7 = queryTok then q ++ replaceQueryF q fuel (s.drop 7)
    else
      match s with
      | [] => []
      | c :: rest => c :: replaceQueryF q fuel rest

/-- Fuel instantiation: each step consumes at least one character, so
`s.length` fuel always suffices. -/
def replaceQuery (q : Str) (s : Str) : Str :=
  replaceQueryF q s.length s

/-- `substituteQuery(input, query)`: serialise, replace, re-parse.  A
failed parse is the `SyntaxError` JSON.parse throws (the model uses a
fixed message; the real message text is engine-specific). -/
def substituteQuery (input : JVal) (query : Str) : Except Str JVal :=
  match parseJson (replaceQuery query (stringifyJson input)) with
  | some v => .ok v
  | none => .error (str "Unexpected token in JSON")


-- ---------------------------------------------------------------------------
-- Workflow execution (executeWorkflow).  Ambient effects are oracles
-- indexed by call count: `now` for successive `Date.now()` results, `ts`
-- for successive `timestamp()` results, `hres` for successive action
-- handler outcomes (a handler either returns an output object or throws
-- a message).  Handler invocations and `sleep` waits are recorded as
-- traces so that claims about "no handler runs" and "backoff is awaited"
-- are statable.
-- ---------------------------------------------------------------------------

/-- A log entry before its timestamp is attached. -/
structure LogC where
  level : Str
  message : Str
  nodeId : Option Str

/-- A log entry as in `lib/types.ts`. -/
structure LogEntry where
  timestamp : Str
  level : Str
  message : Str
  nodeId : Option Str

/-- Mutable engine state during the execution loop: the `logs` and
`nodeExecutions` accumulators, the execution context, the `Date.now()`
and handler call counters, and the two effect traces. -/
structure EngSt where
  logs : List LogC
  execs : List NodeExecution
  ctx : List (Str × JObj)
  nowK : Nat
  hK : Nat
  calls : List (Str × JVal)
  sleeps : List Int

/-- Result of the core run (before timestamps are attached). -/
structure CoreRes where
  success : Bool
  logs : List LogC
  execs : List NodeExecution
  executionTimeMs : Int
  error : Option Str
  calls : List (Str × JVal)
  sleeps : List Int

/-- The caller-facing result shape of `lib/types.ts`. -/
structure ExecutionResult where
  success : Bool
  logs : List LogEntry
  nodeExecutions : List NodeExecution
  executionTimeMs : Int
  error : Option Str

/-- Membership in the `ACTION_HANDLERS` registry. -/
def knownAction (a : Str) : Bool :=
  a = str "plugin.http.get" ∨ a = str "plugin.transform.xml2json"
    ∨ a = str "plugin.transform.jq"

/-- `Object.fromEntries(nodes.map(n => [n.id, n]))[nid]`: later entries
overwrite earlier ones, so lookup returns the last node with the id. -/
def nodeMapGet (nodes : List WorkflowNode) (nid : Str) : Option WorkflowNode :=
  (nodes.filter (fun n => n.id = nid)).getLast?

/-- `parts.join(sep)` for a multi-character separator. -/
def joinSepS (sep : Str) : List Str → Str
  | [] => []
  | [p] => p
  | p :: ps => p ++ sep ++ joinSepS sep ps

/-- `node.timeoutMs && durationMs > node.timeoutMs` (JS truthiness:
an absent or zero timeout disables the check). -/
def timeoutHit (tm : Option Int) (dur : Int) : Bool :=
  match tm with
  | some t => ¬ t = 0 ∧ dur > t
  | none => false

/-- Outcome of processing one id of the topological order: continue,
early-return with an error, or an uncaught exception. -/
inductive StepOut where
  | cont (st : EngSt)
  | halt (st : EngSt) (err : Str)
  | thrown (err : Str)

/-- The retry-log line. -/
def retryMsg (nid : Str) (attempt maxA : Int) (e : Str) : Str :=
  str "Retrying " ++ nid ++ str " (attempt " ++ intToStr attempt
    ++ str "/" ++ intToStr maxA ++ str "): " ++ e

/-- The retry loop (`for attempt = 1..maxAttempts`): each attempt reads
`Date.now()`, invokes the handler, and on normal return reads
`Date.now()` again for the duration; a throwing handler skips the second
read.  A completed attempt whose duration exceeds a truthy `timeoutMs`
is turned into a thrown timeout error before the context is written.  A
failed attempt with attempts remaining logs a retry line and awaits
`backoffMs`.  Returns the state, the `succeeded` flag and `lastError`. -/
def attemptLoop (now : Nat → Int) (hres : Nat → Except Str JObj)
    (node : WorkflowNode) (nid : Str) (rinput : JVal)
    (maxA backoff : Int) : Nat → Int → Str → EngSt → EngSt × Bool × Str
  | 0, _, lastErr, st => (st, false, lastErr)
  | fuel + 1, attempt, lastErr, st =>
    let nodeStart := now st.nowK
    let res := hres st.hK
    let st1 : EngSt := { st with
      nowK := st.nowK + 1
      hK := st.hK + 1
      calls := st.calls ++ [(nid, rinput)] }
    match res with
    | .error e =>
      if attempt < maxA then
        let st2 : EngSt := { st1 with
          logs := st1.logs ++ [⟨str "info", retryMsg nid attempt maxA e, some nid⟩]
          sleeps := st1.sleeps ++ [backoff] }
        attemptLoop now hres node nid rinput maxA backoff fuel (attempt + 1) e st2
      else (st1, false, e)
    | .ok output =>
      let durationMs := now st1.nowK - nodeStart
      let st2 : EngSt := { st1 with nowK := st1.nowK + 1 }
      if timeoutHit node.timeoutMs durationMs then
        let e := str "Timeout exceeded: " ++ intToStr durationMs ++ str "ms > "
          ++ intToStr (node.timeoutMs.getD 0) ++ str "ms"
        if attempt < maxA then
          let st3 : EngSt := { st2 with
            logs := st2.logs ++ [⟨str "info", retryMsg nid attempt maxA e, some nid⟩]
            sleeps := st2.sleeps ++ [backoff] }
          attemptLoop now hres node nid rinput maxA backoff fuel (attempt + 1) e st3
        else (st2, false, e)
      else
        let st3 : EngSt := { st2 with
          ctx := ctxSet st2.ctx nid output
          execs := st2.execs ++ [⟨nid, node.actionRef, str "success",
            durationMs, some rinput, some (.obj output), none⟩]
          logs := st2.logs ++ [⟨str "success",
            str "Completed " ++ nid ++ str " in " ++ intToStr durationMs
              ++ str "ms", some nid⟩] }
        (st3, true, lastErr)

/-- One iteration of the execution loop for an id of the order: skip ids
absent from the node map; halt on an unregistered action; log the
starting line; substitute the query (an uncaught `SyntaxError` escapes
here); resolve the input (a failure halts); then run the retry loop and
either continue (success) or halt with the last error. -/
def stepNode (now : Nat → Int) (hres : Nat → Except Str JObj)
    (nodes : List WorkflowNode) (query : Str) (nid : Str) (st : EngSt) :
    StepOut :=
  match nodeMapGet nodes nid with
  | none => .cont st
  | some node =>
    if knownAction node.actionRef then
      let st1 : EngSt := { st with logs := st.logs ++ [⟨str "running",
        str "Starting " ++ nid ++ str " (" ++ node.actionRef ++ str ")",
        some nid⟩] }
      match substituteQuery node.input query with
      | .error e => .thrown e
      | .ok substituted =>
        match resolveInput substituted st1.ctx with
        | .error err =>
          let st2 : EngSt := { st1 with
            logs := st1.logs ++ [⟨str "error",
              str "Input resolution failed for " ++ nid ++ str ": " ++ err,
              some nid⟩]
            execs := st1.execs ++ [⟨nid, node.actionRef, str "error", 0,
              none, none, some err⟩] }
          .halt st2 err
        | .ok rinput =>
          let maxA := (node.retry.map (·.maxAttempts)).getD 1
          let backoff := (node.retry.map (·.backoffMs)).getD 0
          match attemptLoop now hres node nid rinput maxA backoff
              maxA.toNat 1 (str "") st1 with
          | (st2, true, _) => .cont st2
          | (st2, false, lastErr) =>
            let st3 : EngSt := { st2 with
              logs := st2.logs ++ [⟨str "error",
                str "Failed " ++ nid ++ str ": " ++ lastErr, some nid⟩]
              execs := st2.execs ++ [⟨nid, node.actionRef, str "error", 0,
                none, none, some lastErr⟩] }
            .halt st3 lastErr
    else
      let err := str "Action not implemented: " ++ node.actionRef
      let st1 : EngSt := { st with
        logs := st.logs ++ [⟨str "error", err, some nid⟩]
        execs := st.execs ++ [⟨nid, node.actionRef, str "error", 0, none,
          none, some err⟩] }
      .halt st1 err

/-- The `for (const nodeId of order)` loop. -/
def runNodes (now : Nat → Int) (hres : Nat → Except Str JObj)
    (nodes : List WorkflowNode) (query : Str) :
    List Str → EngSt → Except Str (EngSt × Option Str)
  | [], st => .ok (st, none)
  | nid :: rest, st =>
    match stepNode now hres nodes query nid st with
    | .cont st' => runNodes now hres nodes query rest st'
    | .halt st' e => .ok (st', some e)
    | .thrown e => .error e

/-- The two start-of-run log lines. -/
def startLogs (wf : WorkflowDefinition) (query : Str) : List LogC :=
  [⟨str "info", str "Starting workflow: " ++ wf.metadata.name, none⟩,
   ⟨str "info", str "Query: " ++ query, none⟩]

/-- `executeWorkflow` minus timestamps: the start-of-run logs, the cycle
early-return, the execution loop, and the final success result.  An
uncaught exception surfaces as `.error`. -/
def coreExec (now : Nat → Int) (hres : Nat → Except Str JObj)
    (wf : WorkflowDefinition) (query : Str) : Except Str CoreRes :=
  let startTime := now 0
  let st0 : EngSt := {
    logs := startLogs wf query
    execs := []
    ctx := []
    nowK := 1
    hK := 0
    calls := []
    sleeps := [] }
  let res := topoSort wf.nodes
  if res.2 ≠ [] then
    .ok { success := false
          logs := st0.logs
          execs := []
          executionTimeMs := now st0.nowK - startTime
          error := some (str "Cycle detected: " ++ joinSepS (str ", ") res.2)
          calls := []
          sleeps := [] }
  else
    match runNodes now hres wf.nodes query res.1 st0 with
    | .error e => .error e
    | .ok (st, some e) =>
      .ok { success := false
            logs := st.logs
            execs := st.execs
            executionTimeMs := now st.nowK - startTime
            error := some e
            calls := st.calls
            sleeps := st.sleeps }
    | .ok (st, none) =>
      let t := now st.nowK - startTime
      .ok { success := true
            logs := st.logs ++ [⟨str "success",
              str "Workflow completed in " ++ intToStr t ++ str "ms", none⟩]
            execs := st.execs
            executionTimeMs := t
            error := none
            calls := st.calls
            sleeps := st.sleeps }

/-- The three ambient effect sources of a run. -/
structure Oracle where
  now : Nat → Int
  ts : Nat → Str
  hres : Nat → Except Str JObj

/-- Attaches the successive `timestamp()` results to the log entries;
every `timestamp()` call in the source occurs in exactly one `push`, in
order, so the i-th entry carries the i-th result. -/
def stampLogs (ts : Nat → Str) (logs : List LogC) : List LogEntry :=
  logs.mapIdx (fun i l => ⟨ts i, l.level, l.message, l.nodeId⟩)

/-- `executeWorkflow(workflow, query)` under an effect oracle. -/
def executeWorkflow (o : Oracle) (wf : WorkflowDefinition) (query : Str) :
    Except Str ExecutionResult :=
  match coreExec o.now o.hres wf query with
  | .error e => .error e
  | .ok r =>
    .ok { success := r.success
          logs := stampLogs o.ts r.logs
          nodeExecutions := r.execs
          executionTimeMs := r.executionTimeMs
          error := r.error }

-- ---------------------------------------------------------------------------
-- Claim C2: a dependsOn entry naming no node of the workflow
-- ---------------------------------------------------------------------------

/-- Single node depending on an id that no node of the workflow has. -/
def c2Node : WorkflowNode :=
  ⟨str "b", str "plugin.http.get", str "v1", JVal.obj [],
   some [str "missing"], none, none⟩

/-- One-node workflow with a phantom dependency. -/
def c2Wf : WorkflowDefinition :=
  ⟨str "1", ⟨str "W", str "", str "low", ⟨str "p", []⟩, ⟨10, 1000, 80⟩⟩,
   [c2Node]⟩

/-- Clock oracle for the C2 run. -/
def c2Now : Nat → Int := fun k => (k : Int)

/-- Handler oracle for the C2 run: always succeeds. -/
def c2H : Nat → Except Str JObj := fun _ => .ok [(str "r", JVal.num 7)]

/-- Claim C2 counterexample: a workflow whose single node `b` depends on
the absent id `missing` yields an EMPTY cycle set (the phantom id enters
the in-degree record with degree 0 instead of blocking `b`), the run does
not abort, and `b`'s handler executes: the opposite of the claimed
unresolved-dependency abort. -/
theorem C2_counterexample_phantom :
    topoCycles c2Wf.nodes = []
    ∧ (coreExec c2Now c2H c2Wf (str "q")).toOption.map
        (fun r => (r.success, r.calls.map (·.1), r.execs.map (·.status)))
      = some (true, [str "b"], [str "success"]) :=
  ⟨rfl, rfl⟩

/-- Claim C2 (amended): a `dependsOn` entry `d` that is not the id of any
node is inserted into the in-degree record with degree 0 (never raised,
since only node ids are incremented), hence is emitted into the order and
never lands in the cycle set; the execution loop then skips it silently
(`if (!node) continue`), so the dependent node runs instead of the run
aborting. -/
theorem C2_amended_phantom_dep (nodes : List WorkflowNode)
    (hid : (nodeIds nodes).Nodup) (d : Str) (n : WorkflowNode)
    (hn : n ∈ nodes) (hd : d ∈ depsOf n) (hdm : d ∉ nodeIds nodes) :
    getD (kahnInit nodes) d = 0
    ∧ d ∈ topoOrder nodes
    ∧ d ∉ topoCycles nodes
    ∧ ∀ (now : Nat → Int) (hres : Nat → Except Str JObj) (q : Str)
        (st : EngSt), stepNode now hres nodes q d st = .cont st := by
  have hkey : hasKey (kahnInit nodes) d = true :=
    (hasKey_kahnInit_iff nodes d).mpr (Or.inr ⟨n, hn, hd⟩)
  have hdeps : nodeDeps nodes d = [] := nodeDeps_eq_nil_of_not_mem nodes d hdm
  have inv := kahn_final nodes hid
  have hle : getD (topoLoop nodes (kahnInit nodes) (kahnSeed nodes) []).2 d
      ≤ 0 := by
    have hv := inv.vals d
    rw [hdeps] at hv
    simp only [List.length_nil] at hv
    rw [hv]
    omega
  have hmem : d ∈ topoOrder nodes := by
    have := inv.low_mem d hkey hle
    simpa using this
  refine ⟨?_, hmem, ?_, ?_⟩
  · rw [getD_kahnInit nodes hid d, hdeps]
    rfl
  · intro hcy
    have hkeysF : ((topoLoop nodes (kahnInit nodes) (kahnSeed nodes) []).2.map
        (·.1)).Nodup := by
      rw [inv.keys_eq]
      exact keys_kahnInit_nodup nodes
    have hcy' : d ∈ (((topoLoop nodes (kahnInit nodes) (kahnSeed nodes)
        []).2.filter (fun p => 0 < p.2)).map (·.1)) := by
      have : topoCycles nodes = (((topoLoop nodes (kahnInit nodes)
          (kahnSeed nodes) []).2.filter (fun p => 0 < p.2)).map (·.1)) := by
        unfold topoCycles
        rw [topoSort_eq]
      rw [← this]
      exact hcy
    obtain ⟨p, hpf, hpe⟩ := List.mem_map.mp hcy'
    have hpm := List.mem_of_mem_filter hpf
    have hpv := List.of_mem_filter hpf
    simp only [decide_eq_true_eq] at hpv
    have := getD_of_mem_nodup _ hkeysF p hpm
    rw [hpe] at this
    omega
  · intro now hres q st
    have hlk : nodeMapGet nodes d = none := by
      unfold nodeMapGet
      have : nodes.filter (fun x => x.id = d) = [] := by
        rw [List.filter_eq_nil_iff]
        intro a ha hcontra
        simp only [decide_eq_true_eq] at hcontra
        exact hdm (hcontra ▸ List.mem_map.mpr ⟨a, ha, rfl⟩)
      rw [this]
      rfl
    simp only [stepNode, hlk]

/-- Claim C2 witness: the amended theorem applied to the concrete
one-node workflow with `b.dependsOn = ["missing"]`. -/
theorem C2_witness :
    getD (kahnInit c2Wf.nodes) (str "missing") = 0
    ∧ str "missing" ∈ topoOrder c2Wf.nodes
    ∧ str "missing" ∉ topoCycles c2Wf.nodes
    ∧ ∀ (now : Nat → Int) (hres : Nat → Except Str JObj) (q : Str)
        (st : EngSt),
        stepNode now hres c2Wf.nodes q (str "missing") st = .cont st :=
  C2_amended_phantom_dep c2Wf.nodes (by decide) (str "missing") c2Node
    (by simp [c2Wf]) (by decide) (by decide)

-- ---------------------------------------------------------------------------
-- Claim C3: exception containment of executeWorkflow
-- ---------------------------------------------------------------------------

theorem getLast?_mem {α : Type} : ∀ (l : List α) (a : α),
    l.getLast? = some a → a ∈ l
  | [], a, h => by simp at h
  | [x], a, h => by
    simp only [List.getLast?_singleton, Option.some.injEq] at h
    simp [h]
  | x :: y :: t, a, h => by
    rw [List.getLast?_cons_cons] at h
    exact List.mem_cons_of_mem x (getLast?_mem (y :: t) a h)

theorem nodeMapGet_mem (nodes : List WorkflowNode) (nid : Str)
    (node : WorkflowNode) (h : nodeMapGet nodes nid = some node) :
    node ∈ nodes := by
  unfold nodeMapGet at h
  exact List.mem_of_mem_filter (getLast?_mem _ _ h)

/-- The only uncaught exception of the loop body is the `SyntaxError` of
`substituteQuery`: when every node's substitution parses, no step throws. -/
theorem stepNode_not_thrown (now : Nat → Int) (hres : Nat → Except Str JObj)
    (nodes : List WorkflowNode) (q : Str)
    (hsub : ∀ n ∈ nodes, ∃ v, substituteQuery n.input q = .ok v)
    (nid : Str) (st : EngSt) (e : Str) :
    stepNode now hres nodes q nid st ≠ .thrown e := by
  simp only [stepNode]
  split
  · simp
  · rename_i node hlk
    obtain ⟨v, hv⟩ := hsub node (nodeMapGet_mem _ _ _ hlk)
    split
    · split
      · rename_i e' heq
        rw [hv] at heq
        simp at heq
      · split
        · simp
        · split <;> simp
    · simp

/-- When every node's substitution parses, the whole loop returns. -/
theorem runNodes_ok (now : Nat → Int) (hres : Nat → Except Str JObj)
    (nodes : List WorkflowNode) (q : Str)
    (hsub : ∀ n ∈ nodes, ∃ v, substituteQuery n.input q = .ok v) :
    ∀ (ids : List Str) (st : EngSt),
    ∃ p, runNodes now hres nodes q ids st = .ok p := by
  intro ids
  induction ids with
  | nil => intro st; exact ⟨(st, none), rfl⟩
  | cons nid rest ih =>
    intro st
    cases hst : stepNode now hres nodes q nid st with
    | cont st' =>
      obtain ⟨p, hp⟩ := ih st'
      refine ⟨p, ?_⟩
      unfold runNodes
      rw [hst]
      exact hp
    | halt st' e =>
      refine ⟨(st', some e), ?_⟩
      unfold runNodes
      rw [hst]
    | thrown e => exact absurd hst (stepNode_not_thrown now hres nodes q hsub nid st e)

/-- Node whose input mentions the `\x7bquery\x7d` placeholder. -/
def c3Node : WorkflowNode :=
  ⟨str "a", str "plugin.http.get", str "v1",
   JVal.obj [(str "u", JVal.str (str "{query}"))], none, none, none⟩

/-- One-node workflow used against C3. -/
def c3Wf : WorkflowDefinition :=
  ⟨str "1", ⟨str "W", str "", str "low", ⟨str "p", []⟩, ⟨10, 1000, 80⟩⟩,
   [c3Node]⟩

/-- Effect oracle for the C3 runs. -/
def c3Oracle : Oracle :=
  ⟨fun k => (k : Int), fun _ => str "T", fun _ => .ok [(str "r", JVal.num 1)]⟩

/-- Claim C3 counterexample: `substituteQuery` is called OUTSIDE the
try/catch (only `resolveInput` is guarded), so a query containing a
double quote turns the serialised input into malformed JSON and the
`SyntaxError` of `JSON.parse` escapes `executeWorkflow` uncaught (the
`.error` constructor of the outer `Except` is the escaped exception):
the caller gets a raw exception, not a structured `ExecutionResult`. -/
theorem C3_counterexample_syntax_err :
    executeWorkflow c3Oracle c3Wf (str "\"")
      = .error (str "Unexpected token in JSON") := rfl

/-- Claim C3 (amended): whenever every node's query substitution parses
back (in particular whenever no input embeds the placeholder in a
position a hostile query could break), `executeWorkflow` returns a
structured `ExecutionResult`; every other internal failure — unknown
action, resolution failure, handler errors, timeouts — is caught and
translated into logs and an error result, never an exception. -/
theorem C3_amended_no_escape (o : Oracle) (wf : WorkflowDefinition) (q : Str)
    (hsub : ∀ n ∈ wf.nodes, ∃ v, substituteQuery n.input q = .ok v) :
    ∃ r, executeWorkflow o wf q = .ok r := by
  unfold executeWorkflow coreExec
  by_cases hc : (topoSort wf.nodes).2 ≠ []
  · rw [if_pos hc]
    exact ⟨_, rfl⟩
  · rw [if_neg hc]
    obtain ⟨p, hp⟩ := runNodes_ok o.now o.hres wf.nodes q hsub
      (topoSort wf.nodes).1 _
    rw [hp]
    obtain ⟨st, oe⟩ := p
    cases oe with
    | none => exact ⟨_, rfl⟩
    | some e => exact ⟨_, rfl⟩

/-- Claim C3 witness: the amended theorem applied to the concrete
workflow and the harmless query `cats`. -/
theorem C3_witness :
    ∃ r, executeWorkflow c3Oracle c3Wf (str "cats") = .ok r :=
  C3_amended_no_escape c3Oracle c3Wf (str "cats") (by
    intro n hn
    have : n = c3Node := by simpa [c3Wf] using hn
    subst this
    exact ⟨JVal.obj [(str "u", JVal.str (str "cats"))], rfl⟩)

-- ---------------------------------------------------------------------------
-- Claim C4: cycles abort the run before any execution
-- ---------------------------------------------------------------------------

/-- C4: for every workflow whose dependency graph has a cycle (node ids
distinct), the sequencer's cycle set is non-empty and the run aborts
immediately: the result has `success = false`, a single top-level error
naming the cycle-set identifiers, no `NodeExecution` records, no handler
invocations and no sleeps; only the two start-of-run log lines are
emitted. -/
theorem C4_cycle_aborts (wf : WorkflowDefinition)
    (hid : (nodeIds wf.nodes).Nodup) (hcyc : HasCycle wf.nodes) :
    topoCycles wf.nodes ≠ []
    ∧ (∀ (now : Nat → Int) (hres : Nat → Except Str JObj) (q : Str),
        coreExec now hres wf q = .ok
          ⟨false, startLogs wf q, [], now 1 - now 0,
           some (str "Cycle detected: "
             ++ joinSepS (str ", ") (topoCycles wf.nodes)), [], []⟩)
    ∧ (∀ (o : Oracle) (q : Str),
        executeWorkflow o wf q = .ok
          ⟨false, stampLogs o.ts (startLogs wf q), [], o.now 1 - o.now 0,
           some (str "Cycle detected: "
             ++ joinSepS (str ", ") (topoCycles wf.nodes))⟩) := by
  have hne : topoCycles wf.nodes ≠ [] :=
    topoCycles_ne_nil_of_hasCycle wf.nodes hid hcyc
  have hcore : ∀ (now : Nat → Int) (hres : Nat → Except Str JObj) (q : Str),
      coreExec now hres wf q = .ok
        ⟨false, startLogs wf q, [], now 1 - now 0,
         some (str "Cycle detected: "
           ++ joinSepS (str ", ") (topoCycles wf.nodes)), [], []⟩ := by
    intro now hres q
    have hne' : (topoSort wf.nodes).2 ≠ [] := hne
    unfold coreExec
    rw [if_pos hne']
    rfl
  refine ⟨hne, hcore, ?_⟩
  intro o q
  unfold executeWorkflow
  rw [hcore o.now o.hres q]

/-- Two-node cyclic workflow `a ↔ b`. -/
def c4NodeA : WorkflowNode :=
  ⟨str "a", str "plugin.http.get", str "v1", JVal.obj [],
   some [str "b"], none, none⟩

/-- Second node of the cyclic pair. -/
def c4NodeB : WorkflowNode :=
  ⟨str "b", str "plugin.http.get", str "v1", JVal.obj [],
   some [str "a"], none, none⟩

/-- Cyclic two-node workflow. -/
def c4Wf : WorkflowDefinition :=
  ⟨str "1", ⟨str "W", str "", str "low", ⟨str "p", []⟩, ⟨10, 1000, 80⟩⟩,
   [c4NodeA, c4NodeB]⟩

theorem c4_hasCycle : HasCycle c4Wf.nodes := by
  have e1 : DepEdge c4Wf.nodes (str "a") (str "b") :=
    ⟨c4NodeB, by simp [c4Wf], rfl, by decide⟩
  have e2 : DepEdge c4Wf.nodes (str "b") (str "a") :=
    ⟨c4NodeA, by simp [c4Wf], rfl, by decide⟩
  exact ⟨str "a", Relation.TransGen.head e1 (Relation.TransGen.single e2)⟩

/-- Claim C4 witness: the theorem applied to the concrete cyclic
workflow `a ↔ b`. -/
theorem C4_witness :
    topoCycles c4Wf.nodes ≠ []
    ∧ (∀ (now : Nat → Int) (hres : Nat → Except Str JObj) (q : Str),
        coreExec now hres c4Wf q = .ok
          ⟨false, startLogs c4Wf q, [], now 1 - now 0,
           some (str "Cycle detected: "
             ++ joinSepS (str ", ") (topoCycles c4Wf.nodes)), [], []⟩)
    ∧ (∀ (o : Oracle) (q : Str),
        executeWorkflow o c4Wf q = .ok
          ⟨false, stampLogs o.ts (startLogs c4Wf q), [], o.now 1 - o.now 0,
           some (str "Cycle detected: "
             ++ joinSepS (str ", ") (topoCycles c4Wf.nodes))⟩) :=
  C4_cycle_aborts c4Wf (by decide) c4_hasCycle

-- ---------------------------------------------------------------------------
-- Claim C6: retry / backoff semantics
-- ---------------------------------------------------------------------------

/-- C6: for a handler failing on its first two attempts and succeeding on
the third (oracle results at the state's call counter), with no declared
timeout: under `maxAttempts = 3` the retry loop succeeds, appending a
success record, two retry log lines (naming attempt/limit and the error)
and two `backoffMs` waits; under `maxAttempts = 2` it exhausts after the
second attempt with one retry line and one wait, reporting the second
error; under `maxAttempts = 1` (the default when no retry policy is
given) exactly one attempt is made, with no retry line and no wait.  The
last two conjuncts lift this to the execution loop: a successful retry
loop continues the run with no workflow-level abort, an exhausted one
halts the workflow with a `Failed` log, an error record and the last
error as the run error. -/
theorem C6_retry_backoff (now : Nat → Int) (hres : Nat → Except Str JObj)
    (node : WorkflowNode) (nid : Str) (rinput : JVal) (b : Int)
    (st : EngSt) (e1 e2 : Str) (out : JObj)
    (h1 : hres st.hK = .error e1) (h2 : hres (st.hK + 1) = .error e2)
    (h3 : hres (st.hK + 2) = .ok out) (htm : node.timeoutMs = none) :
    (attemptLoop now hres node nid rinput 3 b 3 1 (str "") st =
      (⟨st.logs ++ [⟨str "info", retryMsg nid 1 3 e1, some nid⟩,
          ⟨str "info", retryMsg nid 2 3 e2, some nid⟩,
          ⟨str "success", str "Completed " ++ nid ++ str " in "
            ++ intToStr (now (st.nowK + 3) - now (st.nowK + 2)) ++ str "ms",
            some nid⟩],
        st.execs ++ [⟨nid, node.actionRef, str "success",
          now (st.nowK + 3) - now (st.nowK + 2), some rinput,
          some (.obj out), none⟩],
        ctxSet st.ctx nid out, st.nowK + 4, st.hK + 3,
        st.calls ++ [(nid, rinput), (nid, rinput), (nid, rinput)],
        st.sleeps ++ [b, b]⟩, true, e2))
    ∧ (attemptLoop now hres node nid rinput 2 b 2 1 (str "") st =
      (⟨st.logs ++ [⟨str "info", retryMsg nid 1 2 e1, some nid⟩],
        st.execs, st.ctx, st.nowK + 2, st.hK + 2,
        st.calls ++ [(nid, rinput), (nid, rinput)],
        st.sleeps ++ [b]⟩, false, e2))
    ∧ (attemptLoop now hres node nid rinput 1 b 1 1 (str "") st =
      (⟨st.logs, st.execs, st.ctx, st.nowK + 1, st.hK + 1,
        st.calls ++ [(nid, rinput)], st.sleeps⟩, false, e1))
    ∧ (∀ (nodes : List WorkflowNode) (q : Str) (sub : JVal) (st2 : EngSt)
        (e : Str),
        nodeMapGet nodes nid = some node →
        knownAction node.actionRef = true →
        substituteQuery node.input q = .ok sub →
        resolveInput sub st.ctx = .ok rinput →
        attemptLoop now hres node nid rinput
          ((node.retry.map (fun r => r.maxAttempts)).getD 1)
          ((node.retry.map (fun r => r.backoffMs)).getD 0)
          (Int.toNat ((node.retry.map (fun r => r.maxAttempts)).getD 1)) 1
          (str "")
          { st with logs := st.logs ++ [⟨str "running",
            str "Starting " ++ nid ++ str " (" ++ node.actionRef ++ str ")",
            some nid⟩] } = (st2, true, e) →
        stepNode now hres nodes q nid st = .cont st2)
    ∧ (∀ (nodes : List WorkflowNode) (q : Str) (sub : JVal) (st2 : EngSt)
        (e : Str),
        nodeMapGet nodes nid = some node →
        knownAction node.actionRef = true →
        substituteQuery node.input q = .ok sub →
        resolveInput sub st.ctx = .ok rinput →
        attemptLoop now hres node nid rinput
          ((node.retry.map (fun r => r.maxAttempts)).getD 1)
          ((node.retry.map (fun r => r.backoffMs)).getD 0)
          (Int.toNat ((node.retry.map (fun r => r.maxAttempts)).getD 1)) 1
          (str "")
          { st with logs := st.logs ++ [⟨str "running",
            str "Starting " ++ nid ++ str " (" ++ node.actionRef ++ str ")",
            some nid⟩] } = (st2, false, e) →
        stepNode now hres nodes q nid st = .halt { st2 with
          logs := st2.logs ++ [⟨str "error",
            str "Failed " ++ nid ++ str ": " ++ e, some nid⟩]
          execs := st2.execs ++ [⟨nid, node.actionRef, str "error", 0,
            none, none, some e⟩] } e) := by
  refine ⟨?_, ?_, ?_, ?_, ?_⟩
  · simp [attemptLoop, h1, h2, h3, htm, timeoutHit]
  · simp [attemptLoop, h1, h2]
  · simp [attemptLoop, h1]
  · intro nodes q sub st2 e hlk hk hsq hri hal
    simp only [stepNode, hlk, hk, eq_self_iff_true, ite_true, hsq, hri]
    rw [hal]
  · intro nodes q sub st2 e hlk hk hsq hri hal
    simp only [stepNode, hlk, hk, eq_self_iff_true, ite_true, hsq, hri]
    rw [hal]

/-- Node with `maxAttempts = 3`, `backoffMs = 5`, no timeout. -/
def c6Node : WorkflowNode :=
  ⟨str "n1", str "plugin.http.get", str "v1", JVal.obj [], none, none,
   some ⟨3, 5⟩⟩

/-- Empty starting state. -/
def c6St : EngSt := ⟨[], [], [], 0, 0, [], []⟩

/-- Clock oracle for the C6 run. -/
def c6Now : Nat → Int := fun k => (k : Int)

/-- Handler oracle: fails on the first two calls, succeeds afterwards. -/
def c6H : Nat → Except Str JObj :=
  fun k => if k < 2 then .error (str "boom") else .ok [(str "r", JVal.num 7)]

/-- Claim C6 witness: the theorem applied to a concrete fail-fail-succeed
handler with backoff 5. -/
theorem C6_witness :
    (attemptLoop c6Now c6H c6Node (str "n1") (JVal.obj []) 3 5 3 1 (str "")
        c6St =
      (⟨c6St.logs ++ [⟨str "info",
          retryMsg (str "n1") 1 3 (str "boom"), some (str "n1")⟩,
          ⟨str "info", retryMsg (str "n1") 2 3 (str "boom"),
            some (str "n1")⟩,
          ⟨str "success", str "Completed " ++ str "n1" ++ str " in "
            ++ intToStr (c6Now (c6St.nowK + 3) - c6Now (c6St.nowK + 2))
            ++ str "ms", some (str "n1")⟩],
        c6St.execs ++ [⟨str "n1", c6Node.actionRef, str "success",
          c6Now (c6St.nowK + 3) - c6Now (c6St.nowK + 2),
          some (JVal.obj []), some (.obj [(str "r", JVal.num 7)]), none⟩],
        ctxSet c6St.ctx (str "n1") [(str "r", JVal.num 7)],
        c6St.nowK + 4, c6St.hK + 3,
        c6St.calls ++ [(str "n1", JVal.obj []), (str "n1", JVal.obj []),
          (str "n1", JVal.obj [])],
        c6St.sleeps ++ [5, 5]⟩, true, str "boom"))
    ∧ (attemptLoop c6Now c6H c6Node (str "n1") (JVal.obj []) 2 5 2 1 (str "")
        c6St =
      (⟨c6St.logs ++ [⟨str "info",
          retryMsg (str "n1") 1 2 (str "boom"), some (str "n1")⟩],
        c6St.execs, c6St.ctx, c6St.nowK + 2, c6St.hK + 2,
        c6St.calls ++ [(str "n1", JVal.obj []), (str "n1", JVal.obj [])],
        c6St.sleeps ++ [5]⟩, false, str "boom"))
    ∧ (attemptLoop c6Now c6H c6Node (str "n1") (JVal.obj []) 1 5 1 1 (str "")
        c6St =
      (⟨c6St.logs, c6St.execs, c6St.ctx, c6St.nowK + 1, c6St.hK + 1,
        c6St.calls ++ [(str "n1", JVal.obj [])], c6St.sleeps⟩, false,
        str "boom")) := by
  have h := C6_retry_backoff c6Now c6H c6Node (str "n1") (JVal.obj []) 5
    c6St (str "boom") (str "boom") [(str "r", JVal.num 7)]
    (by rfl) (by rfl) (by rfl) (by rfl)
  refine ⟨?_, ?_, ?_⟩
  · exact h.1
  · exact h.2.1
  · exact h.2.2.1

-- ---------------------------------------------------------------------------
-- Claim C7: post-hoc timeout treated as a retryable failure
-- ---------------------------------------------------------------------------

/-- The timeout error message of the attempt loop. -/
def tmoutMsg (dur t : Int) : Str :=
  str "Timeout exceeded: " ++ intToStr dur ++ str "ms > " ++ intToStr t
    ++ str "ms"

/-- C7: for a node with a truthy declared `timeoutMs = t` whose handler
RETURNS successfully but whose measured duration exceeds `t`: the attempt
is converted into a failure carrying the timeout message.  With no retry
budget (`maxAttempts = 1`) the loop exhausts — the handler WAS invoked
(its call is in the trace) and both clock reads happened, i.e. the
elapsed time is only checked after the handler settles, never
preemptively — and the over-time output is NOT stored in the context and
no success record is appended.  With `maxAttempts = 2` and a fast second
attempt, the timeout is subject to the ordinary retry rule: a retry line
citing the timeout message, a backoff wait, then success with the second
output. -/
theorem C7_timeout_post_hoc (now : Nat → Int) (hres : Nat → Except Str JObj)
    (node : WorkflowNode) (nid : Str) (rinput : JVal) (b t : Int)
    (st : EngSt) (out out2 : JObj)
    (htm : node.timeoutMs = some t) (ht0 : ¬ t = 0)
    (h1 : hres st.hK = .ok out)
    (hslow : now (st.nowK + 1) - now st.nowK > t)
    (h2 : hres (st.hK + 1) = .ok out2)
    (hfast : ¬(now (st.nowK + 3) - now (st.nowK + 2) > t)) :
    (attemptLoop now hres node nid rinput 1 b 1 1 (str "") st =
      (⟨st.logs, st.execs, st.ctx, st.nowK + 2, st.hK + 1,
        st.calls ++ [(nid, rinput)], st.sleeps⟩, false,
        tmoutMsg (now (st.nowK + 1) - now st.nowK) t))
    ∧ (attemptLoop now hres node nid rinput 2 b 2 1 (str "") st =
      (⟨st.logs ++ [⟨str "info",
          retryMsg nid 1 2 (tmoutMsg (now (st.nowK + 1) - now st.nowK) t),
          some nid⟩,
          ⟨str "success", str "Completed " ++ nid ++ str " in "
            ++ intToStr (now (st.nowK + 3) - now (st.nowK + 2)) ++ str "ms",
            some nid⟩],
        st.execs ++ [⟨nid, node.actionRef, str "success",
          now (st.nowK + 3) - now (st.nowK + 2), some rinput,
          some (.obj out2), none⟩],
        ctxSet st.ctx nid out2, st.nowK + 4, st.hK + 2,
        st.calls ++ [(nid, rinput), (nid, rinput)],
        st.sleeps ++ [b]⟩, true,
        tmoutMsg (now (st.nowK + 1) - now st.nowK) t)) := by
  constructor
  · simp [attemptLoop, h1, htm, timeoutHit, ht0, hslow, tmoutMsg]
  · simp [attemptLoop, h1, h2, htm, timeoutHit, ht0, hslow, hfast, tmoutMsg,
      retryMsg]

/-- Node with a 50ms timeout. -/
def c7Node : WorkflowNode :=
  ⟨str "n1", str "plugin.http.get", str "v1", JVal.obj [], none, some 50,
   none⟩

/-- Empty starting state for the C7 run. -/
def c7St : EngSt := ⟨[], [], [], 0, 0, [], []⟩

/-- Clock oracle: the first attempt takes 100ms, the second 1ms. -/
def c7Now : Nat → Int := fun k => if k ≤ 1 then 100 * k else 210 + k

/-- Handler oracle: always returns successfully. -/
def c7H : Nat → Except Str JObj := fun _ => .ok [(str "y", JVal.num 1)]

/-- Claim C7 witness: the theorem applied to a handler that always
succeeds but overruns its 50ms budget on the first attempt only. -/
theorem C7_witness :
    (attemptLoop c7Now c7H c7Node (str "n1") (JVal.obj []) 1 3 1 1 (str "")
        c7St =
      (⟨c7St.logs, c7St.execs, c7St.ctx, c7St.nowK + 2, c7St.hK + 1,
        c7St.calls ++ [(str "n1", JVal.obj [])], c7St.sleeps⟩, false,
        tmoutMsg (c7Now (c7St.nowK + 1) - c7Now c7St.nowK) 50))
    ∧ (attemptLoop c7Now c7H c7Node (str "n1") (JVal.obj []) 2 3 2 1 (str "")
        c7St =
      (⟨c7St.logs ++ [⟨str "info",
          retryMsg (str "n1") 1 2
            (tmoutMsg (c7Now (c7St.nowK + 1) - c7Now c7St.nowK) 50),
          some (str "n1")⟩,
          ⟨str "success", str "Completed " ++ str "n1" ++ str " in "
            ++ intToStr (c7Now (c7St.nowK + 3) - c7Now (c7St.nowK + 2))
            ++ str "ms", some (str "n1")⟩],
        c7St.execs ++ [⟨str "n1", c7Node.actionRef, str "success",
          c7Now (c7St.nowK + 3) - c7Now (c7St.nowK + 2),
          some (JVal.obj []), some (.obj [(str "y", JVal.num 1)]), none⟩],
        ctxSet c7St.ctx (str "n1") [(str "y", JVal.num 1)],
        c7St.nowK + 4, c7St.hK + 2,
        c7St.calls ++ [(str "n1", JVal.obj []), (str "n1", JVal.obj [])],
        c7St.sleeps ++ [3]⟩, true,
        tmoutMsg (c7Now (c7St.nowK + 1) - c7Now c7St.nowK) 50)) :=
  C7_timeout_post_hoc c7Now c7H c7Node (str "n1") (JVal.obj []) 3 50 c7St
    [(str "y", JVal.num 1)] [(str "y", JVal.num 1)]
    (by rfl) (by decide) (by rfl) (by decide) (by rfl) (by decide)

-- ---------------------------------------------------------------------------
-- Claim C9: determinism modulo timestamps
-- ---------------------------------------------------------------------------

theorem mapIdx_map_proj {α β γ : Type} (g : β → γ) (h : α → γ) :
    ∀ (l : List α) (f : Nat → α → β), (∀ i a, g (f i a) = h a) →
      (l.mapIdx f).map g = l.map h
  | [], _, _ => rfl
  | a :: as, f, hfg => by
    rw [List.mapIdx_cons, List.map_cons, List.map_cons, hfg,
      mapIdx_map_proj g h as (fun i => f (i + 1)) (fun i b => hfg (i + 1) b)]

/-- The timestamp-free projection of a stamped log. -/
def logView (l : LogEntry) : Str × Str × Option Str :=
  (l.level, l.message, l.nodeId)

/-- Everything of an `ExecutionResult` except the log timestamps. -/
def resultView (r : ExecutionResult) :
    Bool × List (Str × Str × Option Str) × List NodeExecution × Int
      × Option Str :=
  (r.success, r.logs.map logView, r.nodeExecutions, r.executionTimeMs,
   r.error)

theorem stampLogs_view (ts : Nat → Str) (logs : List LogC) :
    (stampLogs ts logs).map logView
      = logs.map (fun l => (l.level, l.message, l.nodeId)) := by
  unfold stampLogs
  exact mapIdx_map_proj logView _ logs _ (fun i a => rfl)

/-- C9: two runs with the same workflow, the same query, the same clock
behaviour and the same handler behaviour — the `ts` timestamp oracle may
differ arbitrarily — produce the same core outcome, and caller-facing
results that agree on success, per-node records, execution time, error
and every log's level, message and node id: they differ at most in the
timestamp field of the log entries. -/
theorem C9_deterministic (o1 o2 : Oracle) (wf : WorkflowDefinition)
    (q : Str) (hn : o1.now = o2.now) (hh : o1.hres = o2.hres) :
    coreExec o1.now o1.hres wf q = coreExec o2.now o2.hres wf q
    ∧ (executeWorkflow o1 wf q).map resultView
      = (executeWorkflow o2 wf q).map resultView := by
  have hc : coreExec o1.now o1.hres wf q = coreExec o2.now o2.hres wf q := by
    rw [hn, hh]
  refine ⟨hc, ?_⟩
  unfold executeWorkflow
  rw [hc]
  cases coreExec o2.now o2.hres wf q with
  | error e => rfl
  | ok r => simp [Except.map, resultView, stampLogs_view]

/-- One-node workflow for the C9 runs. -/
def c9Wf : WorkflowDefinition :=
  ⟨str "1", ⟨str "W", str "", str "low", ⟨str "p", []⟩, ⟨10, 1000, 80⟩⟩,
   [⟨str "a", str "plugin.http.get", str "v1", JVal.obj [], none, none,
     none⟩]⟩

/-- First oracle: timestamps all `A`. -/
def c9o1 : Oracle :=
  ⟨fun k => (k : Int), fun _ => str "A",
   fun _ => .ok [(str "r", JVal.num 1)]⟩

/-- Second oracle: same clock and handlers, timestamps all `B`. -/
def c9o2 : Oracle :=
  ⟨fun k => (k : Int), fun _ => str "B",
   fun _ => .ok [(str "r", JVal.num 1)]⟩

/-- Claim C9 witness: the theorem applied to two oracles differing only
in the timestamp source. -/
theorem C9_witness :
    coreExec c9o1.now c9o1.hres c9Wf (str "q")
      = coreExec c9o2.now c9o2.hres c9Wf (str "q")
    ∧ (executeWorkflow c9o1 c9Wf (str "q")).map resultView
      = (executeWorkflow c9o2 c9Wf (str "q")).map resultView :=
  C9_deterministic c9o1 c9o2 c9Wf (str "q") rfl rfl

-- ---------------------------------------------------------------------------
-- Claim C10: terminal error records have durationMs = 0
-- ---------------------------------------------------------------------------

/-- The retry loop only ever appends records with status `success`. -/
theorem attemptLoop_execs (now : Nat → Int) (hres : Nat → Except Str JObj)
    (node : WorkflowNode) (nid : Str) (rinput : JVal) (maxA b : Int) :
    ∀ (fuel : Nat) (attempt : Int) (lastErr : Str) (st : EngSt),
    ∀ rec ∈ (attemptLoop now hres node nid rinput maxA b fuel attempt
      lastErr st).1.execs, rec ∈ st.execs ∨ rec.status = str "success" := by
  intro fuel
  induction fuel with
  | zero =>
    intro attempt lastErr st rec h
    exact Or.inl h
  | succ f ih =>
    intro attempt lastErr st rec h
    cases hr : hres st.hK with
    | error e =>
      simp only [attemptLoop, hr] at h
      split at h
      · have := ih (attempt + 1) e _ rec h
        rcases this with hmem | hs
        · exact Or.inl hmem
        · exact Or.inr hs
      · exact Or.inl h
    | ok out =>
      simp only [attemptLoop, hr] at h
      split at h
      · split at h
        · have := ih (attempt + 1) _ _ rec h
          rcases this with hmem | hs
          · exact Or.inl hmem
          · exact Or.inr hs
        · exact Or.inl h
      · rcases List.mem_append.mp h with hmem | hone
        · exact Or.inl hmem
        · rw [List.mem_singleton.mp hone]
          exact Or.inr rfl

/-- Shape of the record list after one step: a continuing step only adds
success records; a halting step adds success records and then exactly one
error record with `durationMs = 0` carrying the halt error. -/
theorem stepNode_execs (now : Nat → Int) (hres : Nat → Except Str JObj)
    (nodes : List WorkflowNode) (q : Str) (nid : Str) (st : EngSt) :
    (∀ st', stepNode now hres nodes q nid st = .cont st' →
      ∀ rec ∈ st'.execs, rec ∈ st.execs ∨ rec.status = str "success")
    ∧ (∀ st' e, stepNode now hres nodes q nid st = .halt st' e →
      ∃ pre a, st'.execs
          = pre ++ [⟨nid, a, str "error", 0, none, none, some e⟩]
        ∧ ∀ rec ∈ pre, rec ∈ st.execs ∨ rec.status = str "success") := by
  simp only [stepNode]
  split
  · constructor
    · intro st' hc rec hmem
      cases hc
      exact Or.inl hmem
    · intro st' e hh
      cases hh
  · rename_i node hlk
    split
    · split
      · constructor
        · intro st' hc; cases hc
        · intro st' e hh; cases hh
      · split
        · constructor
          · intro st' hc; cases hc
          · intro st' e hh
            cases hh
            refine ⟨st.execs, node.actionRef, rfl, ?_⟩
            intro rec hmem
            exact Or.inl hmem
        · split
          · rename_i st2 lastErr hal
            constructor
            · intro st' hc
              cases hc
              intro rec hmem
              have := attemptLoop_execs now hres node nid _ _ _ _ _ _ _
                rec (by rw [hal]; exact hmem)
              rcases this with hmem' | hs
              · exact Or.inl hmem'
              · exact Or.inr hs
            · intro st' e hh; cases hh
          · rename_i st2 lastErr hal
            constructor
            · intro st' hc; cases hc
            · intro st' e hh
              cases hh
              refine ⟨st2.execs, node.actionRef, rfl, ?_⟩
              intro rec hmem
              have := attemptLoop_execs now hres node nid _ _ _ _ _ _ _
                rec (by rw [hal]; exact hmem)
              rcases this with hmem' | hs
              · exact Or.inl hmem'
              · exact Or.inr hs
    · constructor
      · intro st' hc; cases hc
      · intro st' e hh
        cases hh
        refine ⟨st.execs, node.actionRef, rfl, ?_⟩
        intro rec hmem
        exact Or.inl hmem

/-- Shape of the record list after the whole loop. -/
theorem runNodes_execs (now : Nat → Int) (hres : Nat → Except Str JObj)
    (nodes : List WorkflowNode) (q : Str) :
    ∀ (ids : List Str) (st : EngSt) (res : EngSt × Option Str),
    runNodes now hres nodes q ids st = .ok res →
    (res.2 = none →
      ∀ rec ∈ res.1.execs, rec ∈ st.execs ∨ rec.status = str "success")
    ∧ (∀ e, res.2 = some e →
      ∃ pre a nid', res.1.execs
          = pre ++ [⟨nid', a, str "error", 0, none, none, some e⟩]
        ∧ ∀ rec ∈ pre, rec ∈ st.execs ∨ rec.status = str "success") := by
  intro ids
  induction ids with
  | nil =>
    intro st res h
    cases h
    constructor
    · intro _ rec hmem
      exact Or.inl hmem
    · intro e he
      cases he
  | cons nid rest ih =>
    intro st res h
    unfold runNodes at h
    cases hst : stepNode now hres nodes q nid st with
    | cont st' =>
      rw [hst] at h
      have hstep := (stepNode_execs now hres nodes q nid st).1 st' hst
      have hrec := ih st' res h
      constructor
      · intro hn rec hmem
        rcases hrec.1 hn rec hmem with hmem' | hs
        · exact hstep rec hmem'
        · exact Or.inr hs
      · intro e he
        obtain ⟨pre, a, nid', heq, hpre⟩ := hrec.2 e he
        refine ⟨pre, a, nid', heq, ?_⟩
        intro rec hmem
        rcases hpre rec hmem with hmem' | hs
        · exact hstep rec hmem'
        · exact Or.inr hs
    | halt st' e =>
      rw [hst] at h
      cases h
      have hstep := (stepNode_execs now hres nodes q nid st).2 st' e hst
      constructor
      · intro hn
        cases hn
      · intro e' he'
        cases he'
        obtain ⟨pre, a, heq, hpre⟩ := hstep
        exact ⟨pre, a, nid, heq, hpre⟩
    | thrown e =>
      rw [hst] at h
      cases h

/-- C10: in every run that returns a result, every `NodeExecution` with
status `error` — missing handler, input-resolution failure, or retry
exhaustion — has `durationMs = 0` regardless of the clock oracle (the
wall-clock time the failed attempts consumed), carries no input/output
data, and carries exactly the run's top-level error (the last failure's
message). -/
theorem C10_error_records (now : Nat → Int) (hres : Nat → Except Str JObj)
    (wf : WorkflowDefinition) (q : Str) (r : CoreRes)
    (h : coreExec now hres wf q = .ok r) :
    ∀ rec ∈ r.execs, rec.status = str "error" →
      rec.durationMs = 0 ∧ rec.inputData = none ∧ rec.outputData = none
        ∧ ∃ e, rec.error = some e ∧ r.error = some e := by
  simp only [coreExec] at h
  split at h
  · cases h
    intro rec hmem
    cases hmem
  · cases hrn : runNodes now hres wf.nodes q (topoSort wf.nodes).1
        ⟨startLogs wf q, [], [], 1, 0, [], []⟩ with
    | error e =>
      rw [hrn] at h
      cases h
    | ok p =>
      rw [hrn] at h
      have hrec := runNodes_execs now hres wf.nodes q _ _ p hrn
      obtain ⟨st, oe⟩ := p
      cases oe with
      | none =>
        cases h
        intro rec hmem hstat
        have := hrec.1 rfl rec hmem
        rcases this with hmem' | hs
        · cases hmem'
        · rw [hstat] at hs
          exact absurd hs (by decide)
      | some e =>
        cases h
        intro rec hmem hstat
        obtain ⟨pre, a, nid', heq, hpre⟩ := hrec.2 e rfl
        simp only at hmem
        rw [heq] at hmem
        rcases List.mem_append.mp hmem with hmemp | hone
        · rcases hpre rec hmemp with hmem' | hs
          · cases hmem'
          · rw [hstat] at hs
            exact absurd hs (by decide)
        · rw [List.mem_singleton.mp hone]
          exact ⟨rfl, rfl, rfl, e, rfl, rfl⟩

/-- One-node workflow whose action is not in the handler registry. -/
def c10Wf : WorkflowDefinition :=
  ⟨str "1", ⟨str "W", str "", str "low", ⟨str "p", []⟩, ⟨10, 1000, 80⟩⟩,
   [⟨str "a", str "plugin.wat", str "v1", JVal.obj [], none, none, none⟩]⟩

/-- Clock oracle for the C10 run. -/
def c10Now : Nat → Int := fun k => (k : Int)

/-- Handler oracle for the C10 run (never reached). -/
def c10H : Nat → Except Str JObj := fun _ => .ok []

/-- The run's terminal error record. -/
def c10Rec : NodeExecution :=
  ⟨str "a", str "plugin.wat", str "error", 0, none, none,
   some (str "Action not implemented: plugin.wat")⟩

/-- The run's core result. -/
def c10R : CoreRes :=
  ⟨false,
   startLogs c10Wf (str "q") ++ [⟨str "error",
     str "Action not implemented: plugin.wat", some (str "a")⟩],
   [c10Rec], 1, some (str "Action not implemented: plugin.wat"), [], []⟩

/-- Claim C10 witness: the theorem applied to a concrete run that halts
on an unregistered action. -/
theorem C10_witness :
    c10Rec.durationMs = 0 ∧ c10Rec.inputData = none
      ∧ c10Rec.outputData = none
      ∧ ∃ e, c10Rec.error = some e ∧ c10R.error = some e :=
  C10_error_records c10Now c10H c10Wf (str "q") c10R rfl c10Rec
    (by simp [c10R]) rfl
